import Mathlib

/-!
Verification development for the distributed-llama partition planner,
synchronizer, graph builder, weight loader and transport helpers.

The C++ sources are shallowly embedded: machine unsigned integers become
`ℕ` (no overflow occurs in the modelled ranges), `float`/`double` ratio
arithmetic becomes exact fraction arithmetic (`Fr` below) with `std::round`
modelled as round-half-away-from-zero (all modelled quantities are
nonnegative, where this equals `⌊q + 1/2⌋`), and functions that `throw`
become `Except String`.
-/

set_option maxRecDepth 4000

/-- Exact fractions with explicit integer numerator and denominator. The
`float` ratio arithmetic of the source is embedded as exact rational
arithmetic; this unnormalized representation is used (instead of `ℚ`) so that
every operation reduces in the kernel. -/
structure Fr where
  num : ℤ
  den : ℤ
deriving DecidableEq, Repr

/-- A natural number as a fraction. -/
def Fr.ofNat (n : ℕ) : Fr := ⟨n, 1⟩

instance : OfNat Fr n := ⟨Fr.ofNat n⟩

def Fr.add (a b : Fr) : Fr := ⟨a.num * b.den + b.num * a.den, a.den * b.den⟩

/-- Sum of a list of fractions (the `ratioSum` accumulations of the source). -/
def Fr.sum (l : List Fr) : Fr := l.foldr Fr.add ⟨0, 1⟩

def Fr.div (a b : Fr) : Fr := ⟨a.num * b.den, a.den * b.num⟩

/-- `n * q` for a natural `n`. -/
def Fr.scale (n : ℕ) (a : Fr) : Fr := ⟨n * a.num, a.den⟩

/-- Exact `a < b` by cross multiplication (fractions built by the embedding
have positive denominators; the general form fixes the signs first). -/
def Fr.blt (a b : Fr) : Bool :=
  let an := if a.den < 0 then -a.num else a.num
  let ad := if a.den < 0 then -a.den else a.den
  let bn := if b.den < 0 then -b.num else b.num
  let bd := if b.den < 0 then -b.den else b.den
  an * bd < bn * ad

/-- Exact `a ≤ b` by cross multiplication. -/
def Fr.ble (a b : Fr) : Bool :=
  let an := if a.den < 0 then -a.num else a.num
  let ad := if a.den < 0 then -a.den else a.den
  let bn := if b.den < 0 then -b.num else b.num
  let bd := if b.den < 0 then -b.den else b.den
  an * bd ≤ bn * ad

/-- `(NnUint)std::round(q)` for a nonnegative fraction `q`:
round half away from zero (`⌊q + 1/2⌋` on the nonnegative ideals the source
feeds it), clamped to `ℕ`. -/
def roundQ (q : Fr) : ℕ :=
  let n : ℤ := if q.den < 0 then -q.num else q.num
  let d : ℤ := if q.den < 0 then -q.den else q.den
  if d = 0 then 0 else (Int.fdiv (2 * n + d) (2 * d)).toNat

/-- The remainder snap of `fillDimSplitForStage` (nn-core.cpp:402-411): move
the rounded length to the alignment, upward when the remainder is at least
`align / 2`, toward zero when the subtraction stays positive. -/
def alignSnap (align len0 : ℕ) : ℕ :=
  if len0 % align ≠ 0 then
    if align / 2 ≤ len0 % align then len0 + (align - len0 % align)
    else if len0 % align < len0 then len0 - len0 % align
    else len0
  else len0

/-- The alignment adjustment of `fillDimSplitForStage` (nn-core.cpp:401-414):
snap the rounded length, then bump a zero up to one block when the stage has
headroom. -/
def alignLen (align totalDim nLocalNodes len0 : ℕ) : ℕ :=
  if 1 < align then
    if alignSnap align len0 = 0 ∧ nLocalNodes * align ≤ totalDim then align
    else alignSnap align len0
  else len0

/-- The length chosen by `fillDimSplitForStage` (nn-core.cpp:388-417) for one
non-last member: round the ideal share, apply the alignment adjustment, and
clamp to the dimensions still remaining. -/
def stageLen (totalDim : ℕ) (ratioSum : Fr) (align nLocalNodes : ℕ) (r : Fr)
    (remaining : ℕ) : ℕ :=
  if remaining < alignLen align totalDim nLocalNodes
      (roundQ (Fr.scale totalDim (Fr.div r ratioSum))) then remaining
  else alignLen align totalDim nLocalNodes (roundQ (Fr.scale totalDim (Fr.div r ratioSum)))

/-- The per-member loop of `fillDimSplitForStage`: each member records its
`(start, length)` pair, the last member absorbs everything remaining. -/
def fillLoop (totalDim : ℕ) (ratioSum : Fr) (align nLocalNodes : ℕ) :
    List Fr → ℕ → ℕ → List (ℕ × ℕ)
  | [], _, _ => []
  | [_], start, remaining => [(start, remaining)]
  | r :: r2 :: rest, start, remaining =>
    let len := stageLen totalDim ratioSum align nLocalNodes r remaining
    (start, len) ::
      fillLoop totalDim ratioSum align nLocalNodes (r2 :: rest) (start + len)
        (remaining - len)

/-- `fillDimSplitForStage` (nn-core.cpp:378-424): split `totalDim` over the
stage's members in proportion to `ratios`, with block alignment `alignSize`.
Fails when the ratio sum is below the `1e-6` threshold. -/
def fillDimSplitForStage (totalDim : ℕ) (ratios : List Fr) (alignSize : ℕ) :
    Except String (List (ℕ × ℕ)) :=
  if Fr.blt (Fr.sum ratios) ⟨1, 1000000⟩ then .error "Ratio sum is too small"
  else .ok (fillLoop totalDim (Fr.sum ratios) alignSize ratios.length ratios 0 totalDim)

/-- `NnStageDef` (nn-core.hpp): layer count (0 = auto) plus TP ratios. -/
structure NnStageDef where
  nLayers : ℕ
  tpRatios : List Fr
deriving DecidableEq, Repr

/-- `NnStageConfig` (nn-core.hpp). -/
structure NnStageConfig where
  stageIndex : ℕ
  startLayer : ℕ
  endLayer : ℕ
  nLayers : ℕ
  rootNodeIndex : ℕ
  nNodes : ℕ
  nodeIndices : List ℕ
deriving DecidableEq, Repr

/-- `NnUnevenPartitionPlan` (nn-core.hpp): the five splits are arrays of
`(start, length)` pairs indexed by global node id. -/
structure NnUnevenPartitionPlan where
  nNodes : ℕ
  nStages : ℕ
  stages : List NnStageConfig
  headSplit : List (ℕ × ℕ)
  kvHeadSplit : List (ℕ × ℕ)
  vocabSplit : List (ℕ × ℕ)
  ffnSplit : List (ℕ × ℕ)
  dimSplit : List (ℕ × ℕ)
deriving DecidableEq, Repr

/-- The per-stage data produced by one iteration of the stage loop of
`createPartitionPlan` (nn-core.cpp:474-517). -/
structure StagePieces where
  cfg : NnStageConfig
  kv : List (ℕ × ℕ)
  hd : List (ℕ × ℕ)
  ffn : List (ℕ × ℕ)
  dm : List (ℕ × ℕ)
  vc : List (ℕ × ℕ)
deriving DecidableEq, Repr

/-- The stage loop of `createPartitionPlan`: for each stage fill the KV-head
split (alignment 1), derive the Q-head split by the GQA group size, then fill
the FFN, dim and vocab splits (alignment 32), while accumulating the node and
layer offsets. -/
def planStages (gqa nKvHeads ffnDim dim vocabSize : ℕ) :
    List NnStageDef → ℕ → ℕ → ℕ → Except String (List StagePieces)
  | [], _, _, _ => .ok []
  | d :: rest, sIdx, nodeOff, layerOff => do
    let kv ← fillDimSplitForStage nKvHeads d.tpRatios 1
    let hd := kv.map (fun p => (p.1 * gqa, p.2 * gqa))
    let ffn ← fillDimSplitForStage ffnDim d.tpRatios 32
    let dm ← fillDimSplitForStage dim d.tpRatios 32
    let vc ← fillDimSplitForStage vocabSize d.tpRatios 32
    let k := d.tpRatios.length
    let cfg : NnStageConfig :=
      { stageIndex := sIdx, startLayer := layerOff, endLayer := layerOff + d.nLayers,
        nLayers := d.nLayers, rootNodeIndex := nodeOff, nNodes := k,
        nodeIndices := (List.range k).map (· + nodeOff) }
    let tail ← planStages gqa nKvHeads ffnDim dim vocabSize rest (sIdx + 1)
      (nodeOff + k) (layerOff + d.nLayers)
    .ok (⟨cfg, kv, hd, ffn, dm, vc⟩ :: tail)

/-- `createPartitionPlan` (nn-core.cpp:426-525). -/
def createPartitionPlan (stageDefs : List NnStageDef)
    (globalNHeads globalNKvHeads globalVocabSize globalFfnDim globalDim : ℕ) :
    Except String NnUnevenPartitionPlan :=
  if stageDefs.isEmpty then .error "No stages defined"
  else if stageDefs.any (fun d => d.tpRatios.isEmpty) then .error "Stage must have nodes"
  else if globalNHeads % globalNKvHeads ≠ 0 then
    .error "nHeads must be divisible by nKvHeads"
  else do
    let gqa := globalNHeads / globalNKvHeads
    let pieces ← planStages gqa globalNKvHeads globalFfnDim globalDim
      globalVocabSize stageDefs 0 0 0
    .ok
      { nNodes := (stageDefs.map (fun d => d.tpRatios.length)).sum
        nStages := stageDefs.length
        stages := pieces.map (·.cfg)
        headSplit := (pieces.map (·.hd)).flatten
        kvHeadSplit := (pieces.map (·.kv)).flatten
        vocabSplit := (pieces.map (·.vc)).flatten
        ffnSplit := (pieces.map (·.ffn)).flatten
        dimSplit := (pieces.map (·.dm)).flatten }

/-- The subrange of a split owned by a stage: entries
`[off, off + k)` of the node-indexed array. -/
def segOf (sp : List (ℕ × ℕ)) (off k : ℕ) : List (ℕ × ℕ) :=
  (sp.drop off).take k

/-- The slice entries are contiguous starting at `s`: the first entry starts
at `s` and each following entry starts where the previous one ends. -/
def chainedFrom : ℕ → List (ℕ × ℕ) → Bool
  | _, [] => true
  | s, p :: rest => decide (p.1 = s) && chainedFrom (p.1 + p.2) rest

/-- Sum of the lengths of a split (or a subrange of one). -/
def sumLens (sp : List (ℕ × ℕ)) : ℕ := (sp.map (·.2)).sum

theorem stageLen_le (td : ℕ) (rs : Fr) (a n : ℕ) (r : Fr) (rem : ℕ) :
    stageLen td rs a n r rem ≤ rem := by
  unfold stageLen
  split <;> omega

theorem alignSnap_spec (a l0 : ℕ) (ha : 0 < a) :
    a ∣ alignSnap a l0 ∨ alignSnap a l0 < a / 2 := by
  unfold alignSnap
  have hle : l0 % a ≤ l0 := Nat.mod_le l0 a
  split
  · split
    · refine .inl ?_
      have h1 : l0 + (a - l0 % a) = l0 - l0 % a + a := by
        have := Nat.mod_lt l0 ha
        omega
      rw [h1]
      exact Nat.dvd_add (Nat.dvd_sub_mod l0) dvd_rfl
    · split
      · exact .inl (Nat.dvd_sub_mod l0)
      · next h1 h2 h3 => exact .inr (by omega)
  · next h => exact .inl (Nat.dvd_of_mod_eq_zero (by omega))

theorem alignLen_align (a td n l0 : ℕ) (ha : 0 < a) :
    a ∣ alignLen a td n l0 ∨ alignLen a td n l0 < a / 2 := by
  unfold alignLen
  split
  · split
    · exact .inl dvd_rfl
    · exact alignSnap_spec a l0 ha
  · next h =>
    have : a = 1 := by omega
    exact .inl (this ▸ one_dvd _)

theorem stageLen_align (td : ℕ) (rs : Fr) (a n : ℕ) (r : Fr) (rem : ℕ) (ha : 0 < a) :
    a ∣ stageLen td rs a n r rem ∨ stageLen td rs a n r rem < a / 2
      ∨ stageLen td rs a n r rem = rem := by
  unfold stageLen
  split
  · exact .inr (.inr rfl)
  · rcases alignLen_align a td n (roundQ (Fr.scale td (Fr.div r rs))) ha with h | h
    · exact .inl h
    · exact .inr (.inl h)

theorem fillLoop_length (td : ℕ) (rs : Fr) (a n : ℕ) :
    ∀ (rl : List Fr) (s rem : ℕ), (fillLoop td rs a n rl s rem).length = rl.length
  | [], _, _ => rfl
  | [_], _, _ => rfl
  | r :: r2 :: rest, s, rem => by
    simp only [fillLoop, List.length_cons]
    rw [fillLoop_length td rs a n (r2 :: rest)]
    simp

theorem fillLoop_sum (td : ℕ) (rs : Fr) (a n : ℕ) :
    ∀ (rl : List Fr) (s rem : ℕ), rl ≠ [] →
      sumLens (fillLoop td rs a n rl s rem) = rem
  | [], _, _, h => absurd rfl h
  | [_], s, rem, _ => by simp [fillLoop, sumLens]
  | r :: r2 :: rest, s, rem, _ => by
    have hle := stageLen_le td rs a n r rem
    have ih := fillLoop_sum td rs a n (r2 :: rest)
      (s + stageLen td rs a n r rem) (rem - stageLen td rs a n r rem) (by simp)
    simp only [fillLoop, sumLens, List.map_cons, List.sum_cons] at ih ⊢
    omega

theorem fillLoop_chained (td : ℕ) (rs : Fr) (a n : ℕ) :
    ∀ (rl : List Fr) (s rem : ℕ), chainedFrom s (fillLoop td rs a n rl s rem) = true
  | [], _, _ => rfl
  | [_], s, rem => by simp [fillLoop, chainedFrom]
  | r :: r2 :: rest, s, rem => by
    have ih := fillLoop_chained td rs a n (r2 :: rest)
      (s + stageLen td rs a n r rem) (rem - stageLen td rs a n r rem)
    simp only [fillLoop, chainedFrom, Bool.and_eq_true, decide_eq_true_eq]
    exact ⟨trivial, ih⟩

theorem fillLoop_align (td : ℕ) (rs : Fr) (a n : ℕ) (ha : 0 < a) :
    ∀ (rl : List Fr) (s rem : ℕ), s + rem = td →
      ∀ i, i + 1 < rl.length →
        a ∣ ((fillLoop td rs a n rl s rem).getD i (0, 0)).2
        ∨ ((fillLoop td rs a n rl s rem).getD i (0, 0)).2 < a / 2
        ∨ ((fillLoop td rs a n rl s rem).getD i (0, 0)).1
            + ((fillLoop td rs a n rl s rem).getD i (0, 0)).2 = td
  | [], _, _, _, i, hi => by simp at hi
  | [_], _, _, _, i, hi => by simp at hi
  | r :: r2 :: rest, s, rem, hs, 0, hi => by
    simp only [fillLoop, List.getD_cons_zero]
    rcases stageLen_align td rs a n r rem ha with h | h | h
    · exact .inl h
    · exact .inr (.inl h)
    · exact .inr (.inr (by omega))
  | r :: r2 :: rest, s, rem, hs, i + 1, hi => by
    have hle := stageLen_le td rs a n r rem
    simp only [fillLoop, List.getD_cons_succ]
    exact fillLoop_align td rs a n ha (r2 :: rest) _ _ (by omega) i
      (by simpa using Nat.lt_of_succ_lt_succ hi)

theorem fillDim_ok {td : ℕ} {rl : List Fr} {a : ℕ} {ps : List (ℕ × ℕ)}
    (h : fillDimSplitForStage td rl a = .ok ps) :
    ¬ Fr.blt (Fr.sum rl) ⟨1, 1000000⟩ = true
      ∧ ps = fillLoop td (Fr.sum rl) a rl.length rl 0 td := by
  unfold fillDimSplitForStage at h
  split at h
  · exact absurd h (by simp)
  · next hh => exact ⟨hh, by injection h with h2; exact h2.symm⟩

theorem fillDim_ok_ne_nil {td : ℕ} {rl : List Fr} {a : ℕ} {ps : List (ℕ × ℕ)}
    (h : fillDimSplitForStage td rl a = .ok ps) : rl ≠ [] := by
  intro hnil
  have := (fillDim_ok h).1
  rw [hnil] at this
  exact this (by decide)

theorem fillDim_ok_length {td : ℕ} {rl : List Fr} {a : ℕ} {ps : List (ℕ × ℕ)}
    (h : fillDimSplitForStage td rl a = .ok ps) : ps.length = rl.length := by
  rw [(fillDim_ok h).2]
  exact fillLoop_length td (Fr.sum rl) a rl.length rl 0 td

theorem fillDim_ok_sum {td : ℕ} {rl : List Fr} {a : ℕ} {ps : List (ℕ × ℕ)}
    (h : fillDimSplitForStage td rl a = .ok ps) : sumLens ps = td := by
  rw [(fillDim_ok h).2]
  exact fillLoop_sum td (Fr.sum rl) a rl.length rl 0 td (fillDim_ok_ne_nil h)

theorem fillDim_ok_chained {td : ℕ} {rl : List Fr} {a : ℕ} {ps : List (ℕ × ℕ)}
    (h : fillDimSplitForStage td rl a = .ok ps) : chainedFrom 0 ps = true := by
  rw [(fillDim_ok h).2]
  exact fillLoop_chained td (Fr.sum rl) a rl.length rl 0 td

theorem fillDim_ok_align {td : ℕ} {rl : List Fr} {a : ℕ} {ps : List (ℕ × ℕ)}
    (h : fillDimSplitForStage td rl a = .ok ps) (ha : 0 < a) :
    ∀ i, i + 1 < ps.length →
      a ∣ (ps.getD i (0, 0)).2 ∨ (ps.getD i (0, 0)).2 < a / 2
        ∨ (ps.getD i (0, 0)).1 + (ps.getD i (0, 0)).2 = td := by
  intro i hi
  rw [(fillDim_ok h).2] at hi ⊢
  rw [fillLoop_length] at hi
  exact fillLoop_align td (Fr.sum rl) a rl.length ha rl 0 td (by omega) i hi

theorem planStages_nil_inv {g nKv f dm v sIdx nodeOff layerOff : ℕ}
    {pieces : List StagePieces}
    (h : planStages g nKv f dm v [] sIdx nodeOff layerOff = .ok pieces) :
    pieces = [] := by
  unfold planStages at h
  injection h with h
  exact h.symm

theorem planStages_cons_inv {g nKv f dm v : ℕ} {d : NnStageDef}
    {rest : List NnStageDef} {sIdx nodeOff layerOff : ℕ} {pieces : List StagePieces}
    (h : planStages g nKv f dm v (d :: rest) sIdx nodeOff layerOff = .ok pieces) :
    ∃ kv ffn dmS vc tail,
      fillDimSplitForStage nKv d.tpRatios 1 = .ok kv ∧
      fillDimSplitForStage f d.tpRatios 32 = .ok ffn ∧
      fillDimSplitForStage dm d.tpRatios 32 = .ok dmS ∧
      fillDimSplitForStage v d.tpRatios 32 = .ok vc ∧
      planStages g nKv f dm v rest (sIdx + 1) (nodeOff + d.tpRatios.length)
        (layerOff + d.nLayers) = .ok tail ∧
      pieces = ⟨{ stageIndex := sIdx, startLayer := layerOff,
                  endLayer := layerOff + d.nLayers, nLayers := d.nLayers,
                  rootNodeIndex := nodeOff, nNodes := d.tpRatios.length,
                  nodeIndices := (List.range d.tpRatios.length).map (· + nodeOff) },
                kv, kv.map (fun p => (p.1 * g, p.2 * g)), ffn, dmS, vc⟩ :: tail := by
  unfold planStages at h
  simp only [bind, Except.bind] at h
  cases hkv : fillDimSplitForStage nKv d.tpRatios 1 with
  | error e => rw [hkv] at h; exact absurd h (by simp)
  | ok kv =>
  rw [hkv] at h
  cases hffn : fillDimSplitForStage f d.tpRatios 32 with
  | error e => rw [hffn] at h; exact absurd h (by simp)
  | ok ffn =>
  rw [hffn] at h
  cases hdm : fillDimSplitForStage dm d.tpRatios 32 with
  | error e => rw [hdm] at h; exact absurd h (by simp)
  | ok dmS =>
  rw [hdm] at h
  cases hvc : fillDimSplitForStage v d.tpRatios 32 with
  | error e => rw [hvc] at h; exact absurd h (by simp)
  | ok vc =>
  rw [hvc] at h
  cases htail : planStages g nKv f dm v rest (sIdx + 1)
      (nodeOff + d.tpRatios.length) (layerOff + d.nLayers) with
  | error e => rw [htail] at h; exact absurd h (by simp)
  | ok tail =>
  rw [htail] at h
  injection h with h
  exact ⟨kv, ffn, dmS, vc, tail, rfl, rfl, rfl, rfl, rfl, h.symm⟩

theorem planStages_stage_facts (g nKv f dm v : ℕ) :
    ∀ (defs : List NnStageDef) (sIdx nodeOff layerOff : ℕ)
      (pieces : List StagePieces),
      planStages g nKv f dm v defs sIdx nodeOff layerOff = .ok pieces →
      ∀ pc ∈ pieces, ∃ rl : List Fr,
        pc.cfg.nNodes = rl.length ∧
        fillDimSplitForStage nKv rl 1 = .ok pc.kv ∧
        pc.hd = pc.kv.map (fun p => (p.1 * g, p.2 * g)) ∧
        fillDimSplitForStage f rl 32 = .ok pc.ffn ∧
        fillDimSplitForStage dm rl 32 = .ok pc.dm ∧
        fillDimSplitForStage v rl 32 = .ok pc.vc
  | [] => by
    intro sIdx nodeOff layerOff pieces h pc hpc
    rw [planStages_nil_inv h] at hpc
    simp at hpc
  | d :: rest => by
    intro sIdx nodeOff layerOff pieces h pc hpc
    obtain ⟨kv, ffn, dmS, vc, tail, hkv, hffn, hdm, hvc, htail, rfl⟩ :=
      planStages_cons_inv h
    rcases List.mem_cons.mp hpc with rfl | hmem
    · exact ⟨d.tpRatios, rfl, hkv, rfl, hffn, hdm, hvc⟩
    · exact planStages_stage_facts g nKv f dm v rest _ _ _ tail htail pc hmem

theorem planStages_root (g nKv f dm v : ℕ) :
    ∀ (defs : List NnStageDef) (sIdx nodeOff layerOff : ℕ)
      (pieces : List StagePieces),
      planStages g nKv f dm v defs sIdx nodeOff layerOff = .ok pieces →
      ∀ i (hi : i < pieces.length),
        (pieces.get ⟨i, hi⟩).cfg.rootNodeIndex
          = nodeOff + ((pieces.take i).map (fun pc => pc.cfg.nNodes)).sum
  | [] => by
    intro sIdx nodeOff layerOff pieces h i hi
    rw [planStages_nil_inv h] at hi
    simp at hi
  | d :: rest => by
    intro sIdx nodeOff layerOff pieces h i hi
    obtain ⟨kv, ffn, dmS, vc, tail, hkv, hffn, hdm, hvc, htail, rfl⟩ :=
      planStages_cons_inv h
    match i with
    | 0 => simp
    | i + 1 =>
      have ih := planStages_root g nKv f dm v rest _ _ _ tail htail i
        (by simpa using Nat.lt_of_succ_lt_succ hi)
      simp only [List.get_cons_succ, List.take_succ_cons, List.map_cons,
        List.sum_cons] at ih ⊢
      omega

theorem segOf_flatten_sel (sel : StagePieces → List (ℕ × ℕ)) :
    ∀ (pieces : List StagePieces),
      (∀ pc ∈ pieces, (sel pc).length = pc.cfg.nNodes) →
      ∀ i (hi : i < pieces.length),
        segOf ((pieces.map sel).flatten)
          (((pieces.take i).map (fun pc => pc.cfg.nNodes)).sum)
          (pieces.get ⟨i, hi⟩).cfg.nNodes
          = sel (pieces.get ⟨i, hi⟩)
  | [] => by intro _ i hi; simp at hi
  | pc :: rest => by
    intro hlen i hi
    have h0 : (sel pc).length = pc.cfg.nNodes := hlen pc (by simp)
    match i with
    | 0 =>
      rw [show ((pc :: rest).get ⟨0, hi⟩) = pc from rfl]
      simp only [List.take_zero, List.map_nil, List.sum_nil,
        List.map_cons, List.flatten_cons, segOf, List.drop_zero]
      rw [← h0]
      exact List.take_left _ _
    | i + 1 =>
      have hi2 : i < rest.length := by simpa using Nat.lt_of_succ_lt_succ hi
      have ih := segOf_flatten_sel sel rest (fun q hq => hlen q (by simp [hq])) i hi2
      rw [show ((pc :: rest).get ⟨i + 1, hi⟩) = rest.get ⟨i, hi2⟩ from rfl]
      simp only [List.take_succ_cons, List.map_cons, List.sum_cons,
        List.flatten_cons, segOf] at ih ⊢
      rw [← h0, List.drop_append]
      exact ih

theorem chainedFrom_map_mul (g : ℕ) :
    ∀ (sp : List (ℕ × ℕ)) (s : ℕ), chainedFrom s sp = true →
      chainedFrom (s * g) (sp.map (fun p => (p.1 * g, p.2 * g))) = true
  | [], _, _ => rfl
  | p :: rest, s, h => by
    simp only [chainedFrom, Bool.and_eq_true, decide_eq_true_eq] at h
    obtain ⟨h1, h2⟩ := h
    have ih := chainedFrom_map_mul g rest (p.1 + p.2) h2
    simp only [List.map_cons, chainedFrom, Bool.and_eq_true, decide_eq_true_eq]
    exact ⟨by rw [h1], by rw [← Nat.add_mul]; exact ih⟩

theorem sumLens_map_mul (g : ℕ) (sp : List (ℕ × ℕ)) :
    sumLens (sp.map (fun p => (p.1 * g, p.2 * g))) = sumLens sp * g := by
  induction sp with
  | nil => simp [sumLens]
  | cons p rest ih =>
    simp only [sumLens, List.map_cons, List.sum_cons] at ih ⊢
    rw [ih, Nat.add_mul]

theorem getD_map_pair (f : ℕ × ℕ → ℕ × ℕ) (l : List (ℕ × ℕ)) (i : ℕ)
    (hi : i < l.length) (d : ℕ × ℕ) : (l.map f).getD i d = f (l.getD i d) := by
  rw [List.getD_eq_getElem l d hi,
    List.getD_eq_getElem (l.map f) d (by simpa using hi)]
  simp

theorem planStages_nNodes_map (g nKv f dm v : ℕ) :
    ∀ (defs : List NnStageDef) (sIdx nodeOff layerOff : ℕ)
      (pieces : List StagePieces),
      planStages g nKv f dm v defs sIdx nodeOff layerOff = .ok pieces →
      pieces.map (fun pc => pc.cfg.nNodes) = defs.map (fun d => d.tpRatios.length)
  | [] => by
    intro sIdx nodeOff layerOff pieces h
    rw [planStages_nil_inv h]
    rfl
  | d :: rest => by
    intro sIdx nodeOff layerOff pieces h
    obtain ⟨kv, ffn, dmS, vc, tail, hkv, hffn, hdm, hvc, htail, rfl⟩ :=
      planStages_cons_inv h
    simp only [List.map_cons]
    rw [planStages_nNodes_map g nKv f dm v rest _ _ _ tail htail]

theorem createPartitionPlan_ok_inv {defs : List NnStageDef}
    {nH nKv v f d : ℕ} {plan : NnUnevenPartitionPlan}
    (h : createPartitionPlan defs nH nKv v f d = .ok plan) :
    nH % nKv = 0 ∧
    ∃ pieces, planStages (nH / nKv) nKv f d v defs 0 0 0 = .ok pieces ∧
      plan.stages = pieces.map (·.cfg) ∧
      plan.headSplit = (pieces.map (·.hd)).flatten ∧
      plan.kvHeadSplit = (pieces.map (·.kv)).flatten ∧
      plan.vocabSplit = (pieces.map (·.vc)).flatten ∧
      plan.ffnSplit = (pieces.map (·.ffn)).flatten ∧
      plan.dimSplit = (pieces.map (·.dm)).flatten ∧
      plan.nNodes = (defs.map (fun d2 => d2.tpRatios.length)).sum ∧
      plan.nStages = defs.length := by
  unfold createPartitionPlan at h
  split at h
  · exact absurd h (by simp)
  · split at h
    · exact absurd h (by simp)
    · split at h
      · exact absurd h (by simp)
      · next hmod =>
        refine ⟨by omega, ?_⟩
        simp only [bind, Except.bind] at h
        cases hps : planStages (nH / nKv) nKv f d v defs 0 0 0 with
        | error e => rw [hps] at h; exact absurd h (by simp)
        | ok pieces =>
          rw [hps] at h
          injection h with h
          exact ⟨pieces, rfl, by rw [← h], by rw [← h], by rw [← h],
            by rw [← h], by rw [← h], by rw [← h], by rw [← h], by rw [← h]⟩

theorem planStages_kv_len {g nKv f dm v : ℕ} {defs : List NnStageDef}
    {sIdx nodeOff layerOff : ℕ} {pieces : List StagePieces}
    (h : planStages g nKv f dm v defs sIdx nodeOff layerOff = .ok pieces) :
    ∀ pc ∈ pieces, pc.kv.length = pc.cfg.nNodes := by
  intro pc hpc
  obtain ⟨rl, hn, hkv, _⟩ := planStages_stage_facts g nKv f dm v defs _ _ _ pieces h pc hpc
  rw [fillDim_ok_length hkv, hn]

theorem planStages_sel_len {g nKv f dm v : ℕ} {defs : List NnStageDef}
    {sIdx nodeOff layerOff : ℕ} {pieces : List StagePieces}
    (h : planStages g nKv f dm v defs sIdx nodeOff layerOff = .ok pieces) :
    ∀ pc ∈ pieces, pc.hd.length = pc.cfg.nNodes ∧ pc.ffn.length = pc.cfg.nNodes
      ∧ pc.dm.length = pc.cfg.nNodes ∧ pc.vc.length = pc.cfg.nNodes := by
  intro pc hpc
  obtain ⟨rl, hn, hkv, hhd, hffn, hdm, hvc⟩ :=
    planStages_stage_facts g nKv f dm v defs _ _ _ pieces h pc hpc
  refine ⟨?_, ?_, ?_, ?_⟩
  · rw [hhd]; simp [fillDim_ok_length hkv, hn]
  · rw [fillDim_ok_length hffn, hn]
  · rw [fillDim_ok_length hdm, hn]
  · rw [fillDim_ok_length hvc, hn]

/-- **C1.** For every partition plan produced by `createPartitionPlan` from a
non-empty list of stage definitions (each with non-empty `tpRatios`), and for
every stage of that plan, the lengths of each of the five splits restricted to
the stage's node range `[rootNodeIndex, rootNodeIndex + nNodes)` sum exactly
to the corresponding global dimension, and within each stage the starts are
contiguous: the first node starts at 0 and every following node's start is
the previous start plus the previous length. -/
theorem createPartitionPlan_stage_partition
    {defs : List NnStageDef} {nHeads nKvHeads vocabSize ffnDim dim : ℕ}
    {plan : NnUnevenPartitionPlan}
    (h : createPartitionPlan defs nHeads nKvHeads vocabSize ffnDim dim = .ok plan) :
    ∀ c ∈ plan.stages,
      sumLens (segOf plan.headSplit c.rootNodeIndex c.nNodes) = nHeads ∧
      sumLens (segOf plan.kvHeadSplit c.rootNodeIndex c.nNodes) = nKvHeads ∧
      sumLens (segOf plan.vocabSplit c.rootNodeIndex c.nNodes) = vocabSize ∧
      sumLens (segOf plan.ffnSplit c.rootNodeIndex c.nNodes) = ffnDim ∧
      sumLens (segOf plan.dimSplit c.rootNodeIndex c.nNodes) = dim ∧
      chainedFrom 0 (segOf plan.headSplit c.rootNodeIndex c.nNodes) = true ∧
      chainedFrom 0 (segOf plan.kvHeadSplit c.rootNodeIndex c.nNodes) = true ∧
      chainedFrom 0 (segOf plan.vocabSplit c.rootNodeIndex c.nNodes) = true ∧
      chainedFrom 0 (segOf plan.ffnSplit c.rootNodeIndex c.nNodes) = true ∧
      chainedFrom 0 (segOf plan.dimSplit c.rootNodeIndex c.nNodes) = true := by
  obtain ⟨hmod, pieces, hps, hstages, hhdE, hkvE, hvcE, hffnE, hdmE, hnn, _⟩ :=
    createPartitionPlan_ok_inv h
  intro c hc
  rw [hstages] at hc
  obtain ⟨pc, hpc, hcfg⟩ := List.mem_map.mp hc
  obtain ⟨⟨i, hi⟩, hget⟩ := List.mem_iff_get.mp hpc
  have hroot := planStages_root _ _ _ _ _ defs 0 0 0 pieces hps i hi
  rw [Nat.zero_add, hget] at hroot
  obtain ⟨rl, hn, hkv, hhd, hffn, hdm, hvc⟩ :=
    planStages_stage_facts _ _ _ _ _ defs 0 0 0 pieces hps pc hpc
  have hklen := planStages_kv_len hps
  have hslen := planStages_sel_len hps
  have hsegkv := segOf_flatten_sel (·.kv) pieces hklen i hi
  have hseghd := segOf_flatten_sel (·.hd) pieces (fun q hq => (hslen q hq).1) i hi
  have hsegffn := segOf_flatten_sel (·.ffn) pieces (fun q hq => (hslen q hq).2.1) i hi
  have hsegdm := segOf_flatten_sel (·.dm) pieces (fun q hq => (hslen q hq).2.2.1) i hi
  have hsegvc := segOf_flatten_sel (·.vc) pieces (fun q hq => (hslen q hq).2.2.2) i hi
  rw [hget] at hsegkv hseghd hsegffn hsegdm hsegvc
  subst hcfg
  rw [hhdE, hkvE, hvcE, hffnE, hdmE, hroot, hsegkv, hseghd, hsegffn, hsegdm, hsegvc]
  have hgqa : nKvHeads * (nHeads / nKvHeads) = nHeads := by
    rw [Nat.mul_comm]
    exact Nat.div_mul_cancel (Nat.dvd_of_mod_eq_zero hmod)
  refine ⟨?_, fillDim_ok_sum hkv, fillDim_ok_sum hvc, fillDim_ok_sum hffn,
    fillDim_ok_sum hdm, ?_, fillDim_ok_chained hkv, fillDim_ok_chained hvc,
    fillDim_ok_chained hffn, fillDim_ok_chained hdm⟩
  · rw [hhd, sumLens_map_mul, fillDim_ok_sum hkv, hgqa]
  · rw [hhd]
    have := chainedFrom_map_mul (nHeads / nKvHeads) pc.kv 0 (fillDim_ok_chained hkv)
    simpa using this

instance {ε α : Type} [DecidableEq ε] [DecidableEq α] : DecidableEq (Except ε α) :=
  fun a b =>
    match a, b with
    | .ok x, .ok y =>
      if h : x = y then .isTrue (by rw [h])
      else .isFalse (fun hh => h (by injection hh))
    | .error e, .error e2 =>
      if h : e = e2 then .isTrue (by rw [h])
      else .isFalse (fun hh => h (by injection hh))
    | .ok _, .error _ => .isFalse (fun hh => Except.noConfusion hh)
    | .error _, .ok _ => .isFalse (fun hh => Except.noConfusion hh)

/-- Example stage definitions: one stage, two equal TP members. -/
def exDefsA : List NnStageDef := [⟨1, [1, 1]⟩]

/-- The plan `createPartitionPlan exDefsA 4 2 64 64 64` produces. -/
def exPlanA : NnUnevenPartitionPlan :=
  { nNodes := 2, nStages := 1, stages := [⟨0, 0, 1, 1, 0, 2, [0, 1]⟩],
    headSplit := [(0, 2), (2, 2)], kvHeadSplit := [(0, 1), (1, 1)],
    vocabSplit := [(0, 32), (32, 32)], ffnSplit := [(0, 32), (32, 32)],
    dimSplit := [(0, 32), (32, 32)] }

theorem createPartitionPlan_stage_partition_witness :
    sumLens (segOf exPlanA.kvHeadSplit 0 2) = 2 ∧
    chainedFrom 0 (segOf exPlanA.headSplit 0 2) = true :=
  ⟨(@createPartitionPlan_stage_partition exDefsA 4 2 64 64 64 exPlanA
      (by decide) ⟨0, 0, 1, 1, 0, 2, [0, 1]⟩ (by decide)).2.1,
   (@createPartitionPlan_stage_partition exDefsA 4 2 64 64 64 exPlanA
      (by decide) ⟨0, 0, 1, 1, 0, 2, [0, 1]⟩ (by decide)).2.2.2.2.2.1⟩

theorem flatten_map_map {α β : Type} (f : α → β) :
    ∀ L : List (List α), (L.map (List.map f)).flatten = L.flatten.map f
  | [] => rfl
  | l :: rest => by
    simp only [List.map_cons, List.flatten_cons, List.map_append]
    rw [flatten_map_map f rest]

theorem createPartitionPlan_ok_kv_len {defs : List NnStageDef}
    {nH nKv v f d : ℕ} {plan : NnUnevenPartitionPlan}
    (h : createPartitionPlan defs nH nKv v f d = .ok plan) :
    plan.kvHeadSplit.length = plan.nNodes := by
  obtain ⟨hmod, pieces, hps, hstages, hhdE, hkvE, hvcE, hffnE, hdmE, hnn, _⟩ :=
    createPartitionPlan_ok_inv h
  rw [hkvE, hnn, List.length_flatten, List.map_map]
  rw [show (List.length ∘ fun pc : StagePieces => pc.kv)
      = fun pc : StagePieces => pc.kv.length from rfl]
  rw [List.map_congr_left (fun pc hpc => planStages_kv_len hps pc hpc),
    planStages_nNodes_map _ _ _ _ _ defs 0 0 0 pieces hps]

/-- **C2.** For every partition plan produced by `createPartitionPlan` (which
requires `nHeads % nKvHeads = 0`, with `gqa = nHeads / nKvHeads`), every node
index `i` satisfies `headSplit[i].length = kvHeadSplit[i].length * gqa` and
`headSplit[i].start = kvHeadSplit[i].start * gqa`; and if
`nHeads % nKvHeads ≠ 0`, `createPartitionPlan` fails with an error. -/
theorem createPartitionPlan_gqa_spec
    (defs : List NnStageDef) (nHeads nKvHeads vocabSize ffnDim dim : ℕ) :
    (∀ plan, createPartitionPlan defs nHeads nKvHeads vocabSize ffnDim dim
        = .ok plan →
      ∀ i < plan.nNodes,
        (plan.headSplit.getD i (0, 0)).2
            = (plan.kvHeadSplit.getD i (0, 0)).2 * (nHeads / nKvHeads) ∧
        (plan.headSplit.getD i (0, 0)).1
            = (plan.kvHeadSplit.getD i (0, 0)).1 * (nHeads / nKvHeads)) ∧
    (nHeads % nKvHeads ≠ 0 →
      ∃ e, createPartitionPlan defs nHeads nKvHeads vocabSize ffnDim dim
        = .error e) := by
  constructor
  · intro plan h i hi
    obtain ⟨hmod, pieces, hps, hstages, hhdE, hkvE, hvcE, hffnE, hdmE, hnn, _⟩ :=
      createPartitionPlan_ok_inv h
    have hmap : plan.headSplit
        = plan.kvHeadSplit.map
            (fun p => (p.1 * (nHeads / nKvHeads), p.2 * (nHeads / nKvHeads))) := by
      rw [hhdE, hkvE, ← flatten_map_map, List.map_map]
      congr 1
      refine List.map_congr_left (fun pc hpc => ?_)
      obtain ⟨rl, hn, hkv, hhd, _⟩ :=
        planStages_stage_facts _ _ _ _ _ defs 0 0 0 pieces hps pc hpc
      exact hhd
    have hlen : i < plan.kvHeadSplit.length := by
      rw [createPartitionPlan_ok_kv_len h]; exact hi
    rw [hmap, getD_map_pair _ _ _ hlen]
    exact ⟨rfl, rfl⟩
  · intro hne
    unfold createPartitionPlan
    split
    · exact ⟨_, rfl⟩
    · split
      · exact ⟨_, rfl⟩
      · exact ⟨_, rfl⟩

theorem createPartitionPlan_gqa_spec_witness :
    ((exPlanA.headSplit.getD 0 (0, 0)).2
        = (exPlanA.kvHeadSplit.getD 0 (0, 0)).2 * 2) ∧
    (∃ e, createPartitionPlan exDefsA 3 2 64 64 64 = .error e) :=
  ⟨((createPartitionPlan_gqa_spec exDefsA 4 2 64 64 64).1 exPlanA (by decide)
      0 (by decide)).1,
   (createPartitionPlan_gqa_spec exDefsA 3 2 64 64 64).2 (by decide)⟩

/-- The amended alignment property for one stage segment: every non-last peer
is either block aligned, below half a block (the remainder-keeping branch of
the snap), or ends exactly at the stage total (the clamp branch). -/
def segAligned (seg : List (ℕ × ℕ)) (align totalDim : ℕ) : Prop :=
  ∀ i < seg.length - 1,
    align ∣ (seg.getD i (0, 0)).2 ∨ (seg.getD i (0, 0)).2 < align / 2
      ∨ (seg.getD i (0, 0)).1 + (seg.getD i (0, 0)).2 = totalDim

instance (seg : List (ℕ × ℕ)) (align totalDim : ℕ) :
    Decidable (segAligned seg align totalDim) := by
  unfold segAligned
  infer_instance

/-- Example stage definitions with very skewed ratios 1:100. -/
def exDefsB : List NnStageDef := [⟨1, [⟨1, 1⟩, ⟨100, 1⟩]⟩]

/-- The plan `createPartitionPlan exDefsB 2 2 64 64 64` produces: node 0 (a
non-last peer) receives 1 unit of the vocab/FFN/dim splits. -/
def exPlanB : NnUnevenPartitionPlan :=
  { nNodes := 2, nStages := 1, stages := [⟨0, 0, 1, 1, 0, 2, [0, 1]⟩],
    headSplit := [(0, 0), (0, 2)], kvHeadSplit := [(0, 0), (0, 2)],
    vocabSplit := [(0, 1), (1, 63)], ffnSplit := [(0, 1), (1, 63)],
    dimSplit := [(0, 1), (1, 63)] }

/-- **C4, counterexample.** `createPartitionPlan` on ratios `[1, 100]` with
FFN dimension 64 gives the first (non-last) peer of the stage an FFN slice of
length 1, which is not a multiple of the FFN split's alignment 32: the claim
that every non-last peer's length is a multiple of the alignment is false. -/
theorem createPartitionPlan_nonlast_unaligned :
    createPartitionPlan exDefsB 2 2 64 64 64 = .ok exPlanB ∧
    (exPlanB.stages.getD 0 ⟨0, 0, 0, 0, 0, 0, []⟩).nNodes = 2 ∧
    (exPlanB.stages.getD 0 ⟨0, 0, 0, 0, 0, 0, []⟩).rootNodeIndex = 0 ∧
    (exPlanB.ffnSplit.getD 0 (0, 0)).2 = 1 ∧
    ¬ (32 ∣ (exPlanB.ffnSplit.getD 0 (0, 0)).2) := by
  refine ⟨by decide, rfl, rfl, rfl, by decide⟩

/-- **C4, amended.** In every plan produced by `createPartitionPlan`, for
every stage and every non-last peer of that stage, the peer's length in each
split is a multiple of the split's alignment (1 for KV heads — trivially —
and 32 for vocab/FFN/dim) *unless* the rounded length was kept below half a
block (`length < align / 2`) or the length was clamped to the remaining
dimensions (`start + length = totalDim`); the last peer absorbs the
residue. -/
theorem createPartitionPlan_nonlast_alignment
    {defs : List NnStageDef} {nHeads nKvHeads vocabSize ffnDim dim : ℕ}
    {plan : NnUnevenPartitionPlan}
    (h : createPartitionPlan defs nHeads nKvHeads vocabSize ffnDim dim = .ok plan) :
    ∀ c ∈ plan.stages,
      segAligned (segOf plan.kvHeadSplit c.rootNodeIndex c.nNodes) 1 nKvHeads ∧
      segAligned (segOf plan.vocabSplit c.rootNodeIndex c.nNodes) 32 vocabSize ∧
      segAligned (segOf plan.ffnSplit c.rootNodeIndex c.nNodes) 32 ffnDim ∧
      segAligned (segOf plan.dimSplit c.rootNodeIndex c.nNodes) 32 dim := by
  obtain ⟨hmod, pieces, hps, hstages, hhdE, hkvE, hvcE, hffnE, hdmE, hnn, _⟩ :=
    createPartitionPlan_ok_inv h
  intro c hc
  rw [hstages] at hc
  obtain ⟨pc, hpc, hcfg⟩ := List.mem_map.mp hc
  obtain ⟨⟨i, hi⟩, hget⟩ := List.mem_iff_get.mp hpc
  have hroot := planStages_root _ _ _ _ _ defs 0 0 0 pieces hps i hi
  rw [Nat.zero_add, hget] at hroot
  obtain ⟨rl, hn, hkv, hhd, hffn, hdm, hvc⟩ :=
    planStages_stage_facts _ _ _ _ _ defs 0 0 0 pieces hps pc hpc
  have hklen := planStages_kv_len hps
  have hslen := planStages_sel_len hps
  have hsegkv := segOf_flatten_sel (·.kv) pieces hklen i hi
  have hsegffn := segOf_flatten_sel (·.ffn) pieces (fun q hq => (hslen q hq).2.1) i hi
  have hsegdm := segOf_flatten_sel (·.dm) pieces (fun q hq => (hslen q hq).2.2.1) i hi
  have hsegvc := segOf_flatten_sel (·.vc) pieces (fun q hq => (hslen q hq).2.2.2) i hi
  rw [hget] at hsegkv hsegffn hsegdm hsegvc
  subst hcfg
  rw [hkvE, hvcE, hffnE, hdmE, hroot, hsegkv, hsegffn, hsegdm, hsegvc]
  refine ⟨?_, ?_, ?_, ?_⟩ <;> intro j hj
  · exact fillDim_ok_align hkv (by omega) j (by omega)
  · exact fillDim_ok_align hvc (by omega) j (by omega)
  · exact fillDim_ok_align hffn (by omega) j (by omega)
  · exact fillDim_ok_align hdm (by omega) j (by omega)

theorem createPartitionPlan_nonlast_alignment_witness :
    segAligned (segOf exPlanB.ffnSplit 0 2) 32 64 :=
  (@createPartitionPlan_nonlast_alignment exDefsB 2 2 64 64 64 exPlanB
    (by decide) ⟨0, 0, 1, 1, 0, 2, [0, 1]⟩ (by decide)).2.2.1

/-- `getSplitTotal` (nn-network.cpp:36-41): total units of a split (0 for a
missing split, which is the empty list here). -/
def getSplitTotal (sp : List (ℕ × ℕ)) : ℕ := sumLens sp

/-- The per-node offset/size loop inside `tryMatch` of `fillUnevenSlices`
(nn-network.cpp:151-157): offsets are recomputed as running sums of
`length * bytesPerUnit`. -/
def accumSlices (bytesPerUnit : ℕ) : List (ℕ × ℕ) → ℕ → List (ℕ × ℕ)
  | [], _ => []
  | p :: rest, acc =>
    (acc, p.2 * bytesPerUnit) :: accumSlices bytesPerUnit rest (acc + p.2 * bytesPerUnit)

/-- The `tryMatch` lambda of `fillUnevenSlices` (nn-network.cpp:144-161): a
split matches when its total divides the byte count. -/
def tryMatch (sp : List (ℕ × ℕ)) (totalBytes : ℕ) : Option (List (ℕ × ℕ)) :=
  if 0 < getSplitTotal sp ∧ totalBytes % getSplitTotal sp = 0 then
    some (accumSlices (totalBytes / getSplitTotal sp) sp 0)
  else none

/-- The `if (!matchFound)` chain: first matching split wins. -/
def firstMatch (totalBytes : ℕ) : List (List (ℕ × ℕ)) → Option (List (ℕ × ℕ))
  | [] => none
  | sp :: rest =>
    match tryMatch sp totalBytes with
    | some r => some r
    | none => firstMatch totalBytes rest

/-- `fillUnevenSlices` (nn-network.cpp:138-187): per-node byte offsets and
sizes for a pipe row of `totalBytes` bytes. Priority order of the splits is
vocab, FFN, dim, heads, KV heads; the fallback is uniform with the rounding
residue on the last node. -/
def fillUnevenSlices (plan : Option NnUnevenPartitionPlan) (nNodes totalBytes : ℕ) :
    List (ℕ × ℕ) :=
  let matched : Option (List (ℕ × ℕ)) :=
    match plan with
    | some p =>
      if p.nNodes = nNodes then
        firstMatch totalBytes
          [p.vocabSplit, p.ffnSplit, p.dimSplit, p.headSplit, p.kvHeadSplit]
      else none
    | none => none
  match matched with
  | some s => s
  | none =>
    (List.range nNodes).map fun i =>
      if i + 1 = nNodes then
        ((nNodes - 1) * (totalBytes / nNodes),
          totalBytes - (nNodes - 1) * (totalBytes / nNodes))
      else (i * (totalBytes / nNodes), totalBytes / nNodes)

/-- The `tryApplySplit` lambda of `NnCpuDevice::resolvePointer`
(nn-cpu.cpp:238-248): element-level offset and length for one node. -/
def tryApplySplit (sp : List (ℕ × ℕ)) (x nodeIdx : ℕ) : Option (ℕ × ℕ) :=
  if 0 < getSplitTotal sp ∧ x % getSplitTotal sp = 0 then
    some ((sp.getD nodeIdx (0, 0)).1 * (x / getSplitTotal sp),
          (sp.getD nodeIdx (0, 0)).2 * (x / getSplitTotal sp))
  else none

/-- The `if (!splitFound)` chain of the resolver. -/
def firstApply (x nodeIdx : ℕ) : List (List (ℕ × ℕ)) → Option (ℕ × ℕ)
  | [] => none
  | sp :: rest =>
    match tryApplySplit sp x nodeIdx with
    | some r => some r
    | none => firstApply x nodeIdx rest

/-- Steps 1-2 of the `PNTR_BATCHED_SLICE` case of
`NnCpuDevice::resolvePointer` (nn-cpu.cpp:228-262): consult the plan in
priority order vocab, FFN, heads, KV heads (no dim split), else fall back to
the uniform `x / nNodes` slice. -/
def resolveRaw (plan : Option NnUnevenPartitionPlan) (netNNodes x nodeIdx : ℕ) :
    ℕ × ℕ :=
  let matched : Option (ℕ × ℕ) :=
    match plan with
    | some p =>
      if netNNodes = p.nNodes then
        firstApply x nodeIdx [p.vocabSplit, p.ffnSplit, p.headSplit, p.kvHeadSplit]
      else none
    | none => none
  match matched with
  | some r => r
  | none => (nodeIdx * (x / netNNodes), x / netNNodes)

/-- Step 3 of the `PNTR_BATCHED_SLICE` case (nn-cpu.cpp:264-271): the
out-of-range guard zeroes both offset and length when the byte offset reaches
the pipe's byte size. `bytesPerElt` is the linear byte size of one element
(4 for the F32 pipes the builder registers, 2 for F16). -/
def resolveBatchedSlice (plan : Option NnUnevenPartitionPlan)
    (netNNodes x nodeIdx bytesPerElt : ℕ) : ℕ × ℕ :=
  if bytesPerElt * x ≤ bytesPerElt * (resolveRaw plan netNNodes x nodeIdx).1 then
    (0, 0)
  else resolveRaw plan netNNodes x nodeIdx

/-- One stage, two TP members with ratios 1:3. -/
def exDefsC : List NnStageDef := [⟨1, [⟨1, 1⟩, ⟨3, 1⟩]⟩]

/-- The plan `createPartitionPlan exDefsC 6 6 96 96 128` produces. -/
def exPlanC : NnUnevenPartitionPlan :=
  { nNodes := 2, nStages := 1, stages := [⟨0, 0, 1, 1, 0, 2, [0, 1]⟩],
    headSplit := [(0, 2), (2, 4)], kvHeadSplit := [(0, 2), (2, 4)],
    vocabSplit := [(0, 32), (32, 64)], ffnSplit := [(0, 32), (32, 64)],
    dimSplit := [(0, 32), (32, 96)] }

/-- **C3, counterexample.** For the plan of `exDefsC` and an F32 pipe with
x-dimension 128 (512 bytes), the synchronizer's `fillUnevenSlices` matches
the *dim* split (priority vocab, ffn, dim, heads, kvHeads over byte counts)
and gives node 0 a 128-byte slice, while the CPU resolver's
`BATCHED_SLICE` matcher (priority vocab, ffn, heads, kvHeads over element
counts — it never consults the dim split) matches nothing and falls back to
the uniform `x / nNodes = 64` elements (256 bytes): the two are not
identical. -/
theorem fillUnevenSlices_ne_resolveBatchedSlice :
    createPartitionPlan exDefsC 6 6 96 96 128 = .ok exPlanC ∧
    fillUnevenSlices (some exPlanC) 2 (4 * 128) = [(0, 128), (128, 384)] ∧
    resolveBatchedSlice (some exPlanC) 2 128 0 4 = (0, 64) ∧
    ¬ ((fillUnevenSlices (some exPlanC) 2 (4 * 128)).getD 0 (0, 0)
        = (4 * (resolveBatchedSlice (some exPlanC) 2 128 0 4).1,
           4 * (resolveBatchedSlice (some exPlanC) 2 128 0 4).2)) := by
  refine ⟨by decide, by decide, by decide, by decide⟩

theorem accumSlices_getD (bpu : ℕ) :
    ∀ (sp : List (ℕ × ℕ)) (acc i : ℕ), i < sp.length →
      (accumSlices bpu sp acc).getD i (0, 0)
        = (acc + sumLens (sp.take i) * bpu, (sp.getD i (0, 0)).2 * bpu)
  | [], _, i, hi => by simp at hi
  | p :: rest, acc, 0, _ => by simp [accumSlices, sumLens]
  | p :: rest, acc, i + 1, hi => by
    have ih := accumSlices_getD bpu rest (acc + p.2 * bpu) i
      (by simpa using Nat.lt_of_succ_lt_succ hi)
    simp only [accumSlices, List.getD_cons_succ, List.take_succ_cons, sumLens,
      List.map_cons, List.sum_cons] at ih ⊢
    rw [ih]
    have harith : acc + p.2 * bpu + (List.map (·.2) (rest.take i)).sum * bpu
        = acc + (p.2 + (List.map (·.2) (rest.take i)).sum) * bpu := by ring
    rw [harith]

theorem chainedFrom_getD :
    ∀ (sp : List (ℕ × ℕ)) (s : ℕ), chainedFrom s sp = true →
      ∀ i, i < sp.length → (sp.getD i (0, 0)).1 = s + sumLens (sp.take i)
  | [], _, _, i, hi => by simp at hi
  | p :: rest, s, h, 0, _ => by
    simp only [chainedFrom, Bool.and_eq_true, decide_eq_true_eq] at h
    simp [h.1, sumLens]
  | p :: rest, s, h, i + 1, hi => by
    simp only [chainedFrom, Bool.and_eq_true, decide_eq_true_eq] at h
    have ih := chainedFrom_getD rest (p.1 + p.2) h.2 i
      (by simpa using Nat.lt_of_succ_lt_succ hi)
    simp only [List.getD_cons_succ, List.take_succ_cons, sumLens, List.map_cons,
      List.sum_cons] at ih ⊢
    rw [ih, h.1]
    omega

theorem match_entries_eq (sp : List (ℕ × ℕ)) (n x b i : ℕ)
    (hlen : sp.length = n) (hchain : chainedFrom 0 sp = true)
    (ht : 0 < getSplitTotal sp) (hdvd : x % getSplitTotal sp = 0) (hi : i < n) :
    (accumSlices (b * x / getSplitTotal sp) sp 0).getD i (0, 0)
      = (b * ((sp.getD i (0, 0)).1 * (x / getSplitTotal sp)),
         b * ((sp.getD i (0, 0)).2 * (x / getSplitTotal sp))) := by
  have hdvd2 : getSplitTotal sp ∣ x := Nat.dvd_of_mod_eq_zero hdvd
  have hbpu : b * x / getSplitTotal sp = b * (x / getSplitTotal sp) :=
    Nat.mul_div_assoc b hdvd2
  have hilen : i < sp.length := by omega
  rw [hbpu, accumSlices_getD _ sp 0 i hilen,
    chainedFrom_getD sp 0 hchain i hilen]
  refine Prod.ext ?_ ?_ <;> simp <;> ring

/-- **C3, amended.** The `SYNC_NODE_SLICES` slice table (`fillUnevenSlices`)
and the `BATCHED_SLICE` pointer resolver agree — the synchronizer's byte
offset and size are exactly `bytesPerElt` times the resolver's element offset
and length — *provided that* (i) the four splits the resolver consults are
globally contiguous (true for single-stage plans, not in general), (ii) for
those splits byte divisibility of the pipe row agrees with element
divisibility, (iii) the dim split — which only the synchronizer consults —
does not match the byte count unless the vocab or FFN split already does,
(iv) when no split matches, the node count divides the x-dimension, and
(v) every node's resolved slice is non-empty. Without these side conditions
the two computations differ (see the counterexample). -/
theorem fillUnevenSlices_eq_resolveBatchedSlice
    (p : NnUnevenPartitionPlan) (n x b : ℕ)
    (hn : p.nNodes = n) (hb : 0 < b) (hn0 : 0 < n)
    (hlenv : p.vocabSplit.length = n) (hlenf : p.ffnSplit.length = n)
    (hlenh : p.headSplit.length = n) (hlenk : p.kvHeadSplit.length = n)
    (hchv : chainedFrom 0 p.vocabSplit = true)
    (hchf : chainedFrom 0 p.ffnSplit = true)
    (hchh : chainedFrom 0 p.headSplit = true)
    (hchk : chainedFrom 0 p.kvHeadSplit = true)
    (hgran : ∀ sp ∈ [p.vocabSplit, p.ffnSplit, p.headSplit, p.kvHeadSplit],
      0 < getSplitTotal sp →
        (b * x % getSplitTotal sp = 0 ↔ x % getSplitTotal sp = 0))
    (hdim : 0 < getSplitTotal p.dimSplit → b * x % getSplitTotal p.dimSplit = 0 →
      (0 < getSplitTotal p.vocabSplit ∧ b * x % getSplitTotal p.vocabSplit = 0)
      ∨ (0 < getSplitTotal p.ffnSplit ∧ b * x % getSplitTotal p.ffnSplit = 0))
    (hfall : (∀ sp ∈ [p.vocabSplit, p.ffnSplit, p.headSplit, p.kvHeadSplit],
        ¬(0 < getSplitTotal sp ∧ x % getSplitTotal sp = 0)) → x % n = 0)
    (hpos : ∀ i, i < n → 0 < (resolveBatchedSlice (some p) n x i b).2) :
    ∀ i, i < n →
      (fillUnevenSlices (some p) n (b * x)).getD i (0, 0)
        = (b * (resolveBatchedSlice (some p) n x i b).1,
           b * (resolveBatchedSlice (some p) n x i b).2) := by
  subst hn
  intro i hi
  have hres : resolveBatchedSlice (some p) p.nNodes x i b
      = resolveRaw (some p) p.nNodes x i := by
    by_cases hcl : b * x ≤ b * (resolveRaw (some p) p.nNodes x i).1
    · exfalso
      have h0 := hpos i hi
      unfold resolveBatchedSlice at h0
      rw [if_pos hcl] at h0
      simp at h0
    · unfold resolveBatchedSlice
      rw [if_neg hcl]
  rw [hres]
  have hfill : fillUnevenSlices (some p) p.nNodes (b * x)
      = match firstMatch (b * x) [p.vocabSplit, p.ffnSplit, p.dimSplit,
          p.headSplit, p.kvHeadSplit] with
        | some s => s
        | none =>
          (List.range p.nNodes).map fun j =>
            if j + 1 = p.nNodes then
              ((p.nNodes - 1) * (b * x / p.nNodes),
                b * x - (p.nNodes - 1) * (b * x / p.nNodes))
            else (j * (b * x / p.nNodes), b * x / p.nNodes) := by
    simp [fillUnevenSlices]
  have hraw : resolveRaw (some p) p.nNodes x i
      = match firstApply x i [p.vocabSplit, p.ffnSplit, p.headSplit,
          p.kvHeadSplit] with
        | some r => r
        | none => (i * (x / p.nNodes), x / p.nNodes) := by
    simp [resolveRaw]
  rw [hfill, hraw]
  by_cases cv : 0 < getSplitTotal p.vocabSplit ∧ x % getSplitTotal p.vocabSplit = 0
  · have e1 : tryApplySplit p.vocabSplit x i
        = some ((p.vocabSplit.getD i (0, 0)).1 * (x / getSplitTotal p.vocabSplit),
                (p.vocabSplit.getD i (0, 0)).2 * (x / getSplitTotal p.vocabSplit)) := by
      unfold tryApplySplit; rw [if_pos cv]
    have e2 : tryMatch p.vocabSplit (b * x)
        = some (accumSlices (b * x / getSplitTotal p.vocabSplit) p.vocabSplit 0) := by
      unfold tryMatch
      rw [if_pos ⟨cv.1, (hgran _ (by simp) cv.1).mpr cv.2⟩]
    simp only [firstMatch, firstApply, e1, e2]
    exact match_entries_eq p.vocabSplit p.nNodes x b i hlenv hchv cv.1 cv.2 hi
  · have e1 : tryApplySplit p.vocabSplit x i = none := by
      unfold tryApplySplit; rw [if_neg cv]
    have e2 : tryMatch p.vocabSplit (b * x) = none := by
      unfold tryMatch
      rw [if_neg]
      rintro ⟨h1, h2⟩
      exact cv ⟨h1, (hgran _ (by simp) h1).mp h2⟩
    by_cases cf : 0 < getSplitTotal p.ffnSplit ∧ x % getSplitTotal p.ffnSplit = 0
    · have e3 : tryApplySplit p.ffnSplit x i
          = some ((p.ffnSplit.getD i (0, 0)).1 * (x / getSplitTotal p.ffnSplit),
                  (p.ffnSplit.getD i (0, 0)).2 * (x / getSplitTotal p.ffnSplit)) := by
        unfold tryApplySplit; rw [if_pos cf]
      have e4 : tryMatch p.ffnSplit (b * x)
          = some (accumSlices (b * x / getSplitTotal p.ffnSplit) p.ffnSplit 0) := by
        unfold tryMatch
        rw [if_pos ⟨cf.1, (hgran _ (by simp) cf.1).mpr cf.2⟩]
      simp only [firstMatch, firstApply, e1, e2, e3, e4]
      exact match_entries_eq p.ffnSplit p.nNodes x b i hlenf hchf cf.1 cf.2 hi
    · have e3 : tryApplySplit p.ffnSplit x i = none := by
        unfold tryApplySplit; rw [if_neg cf]
      have e4 : tryMatch p.ffnSplit (b * x) = none := by
        unfold tryMatch
        rw [if_neg]
        rintro ⟨h1, h2⟩
        exact cf ⟨h1, (hgran _ (by simp) h1).mp h2⟩
      have e5 : tryMatch p.dimSplit (b * x) = none := by
        unfold tryMatch
        rw [if_neg]
        rintro ⟨h1, h2⟩
        rcases hdim h1 h2 with ⟨hv1, hv2⟩ | ⟨hf1, hf2⟩
        · exact cv ⟨hv1, (hgran _ (by simp) hv1).mp hv2⟩
        · exact cf ⟨hf1, (hgran _ (by simp) hf1).mp hf2⟩
      by_cases ch : 0 < getSplitTotal p.headSplit ∧ x % getSplitTotal p.headSplit = 0
      · have e6 : tryApplySplit p.headSplit x i
            = some ((p.headSplit.getD i (0, 0)).1 * (x / getSplitTotal p.headSplit),
                    (p.headSplit.getD i (0, 0)).2 * (x / getSplitTotal p.headSplit)) := by
          unfold tryApplySplit; rw [if_pos ch]
        have e7 : tryMatch p.headSplit (b * x)
            = some (accumSlices (b * x / getSplitTotal p.headSplit) p.headSplit 0) := by
          unfold tryMatch
          rw [if_pos ⟨ch.1, (hgran _ (by simp) ch.1).mpr ch.2⟩]
        simp only [firstMatch, firstApply, e1, e2, e3, e4, e5, e6, e7]
        exact match_entries_eq p.headSplit p.nNodes x b i hlenh hchh ch.1 ch.2 hi
      · have e6 : tryApplySplit p.headSplit x i = none := by
          unfold tryApplySplit; rw [if_neg ch]
        have e7 : tryMatch p.headSplit (b * x) = none := by
          unfold tryMatch
          rw [if_neg]
          rintro ⟨h1, h2⟩
          exact ch ⟨h1, (hgran _ (by simp) h1).mp h2⟩
        by_cases ck : 0 < getSplitTotal p.kvHeadSplit
            ∧ x % getSplitTotal p.kvHeadSplit = 0
        · have e8 : tryApplySplit p.kvHeadSplit x i
              = some ((p.kvHeadSplit.getD i (0, 0)).1 * (x / getSplitTotal p.kvHeadSplit),
                      (p.kvHeadSplit.getD i (0, 0)).2 * (x / getSplitTotal p.kvHeadSplit)) := by
            unfold tryApplySplit; rw [if_pos ck]
          have e9 : tryMatch p.kvHeadSplit (b * x)
              = some (accumSlices (b * x / getSplitTotal p.kvHeadSplit) p.kvHeadSplit 0) := by
            unfold tryMatch
            rw [if_pos ⟨ck.1, (hgran _ (by simp) ck.1).mpr ck.2⟩]
          simp only [firstMatch, firstApply, e1, e2, e3, e4, e5, e6, e7, e8, e9]
          exact match_entries_eq p.kvHeadSplit p.nNodes x b i hlenk hchk ck.1 ck.2 hi
        · have e8 : tryApplySplit p.kvHeadSplit x i = none := by
            unfold tryApplySplit; rw [if_neg ck]
          have e9 : tryMatch p.kvHeadSplit (b * x) = none := by
            unfold tryMatch
            rw [if_neg]
            rintro ⟨h1, h2⟩
            exact ck ⟨h1, (hgran _ (by simp) h1).mp h2⟩
          have hxn : x % p.nNodes = 0 := by
            apply hfall
            intro sp hsp
            simp only [List.mem_cons, List.mem_singleton] at hsp
            rcases hsp with rfl | rfl | rfl | hsp
            · exact cv
            · exact cf
            · exact ch
            · simp at hsp; rw [hsp]; exact ck
          simp only [firstMatch, firstApply, e1, e2, e3, e4, e5, e6, e7, e8, e9]
          have hq : p.nNodes * (x / p.nNodes) = x :=
            Nat.mul_div_cancel' (Nat.dvd_of_mod_eq_zero hxn)
          have havg : b * x / p.nNodes = b * (x / p.nNodes) := by
            have h3 : b * x = p.nNodes * (b * (x / p.nNodes)) := by
              conv_lhs => rw [← hq]
              ring
            rw [h3, Nat.mul_div_cancel_left _ hn0]
          rw [List.getD_eq_getElem _ _ (by simpa using hi)]
          simp only [List.getElem_map, List.getElem_range]
          by_cases hlast : i + 1 = p.nNodes
          · rw [if_pos hlast, havg]
            refine Prod.ext ?_ ?_ <;> simp
            · rw [← hlast]
              simp only [Nat.add_sub_cancel]
              ring
            · rw [← hlast]
              simp only [Nat.add_sub_cancel]
              have h2 : b * x = i * (b * (x / (i + 1))) + b * (x / (i + 1)) := by
                conv_lhs => rw [← hq]
                rw [← hlast]
                ring
              omega
          · rw [if_neg hlast, havg]
            refine Prod.ext ?_ ?_ <;> simp <;> ring

theorem fillUnevenSlices_eq_resolveBatchedSlice_witness :
    (fillUnevenSlices (some exPlanC) 2 (4 * 96)).getD 0 (0, 0)
      = (4 * (resolveBatchedSlice (some exPlanC) 2 96 0 4).1,
         4 * (resolveBatchedSlice (some exPlanC) 2 96 0 4).2) :=
  fillUnevenSlices_eq_resolveBatchedSlice exPlanC 2 96 4 (by decide) (by decide)
    (by decide) (by decide) (by decide) (by decide) (by decide) (by decide)
    (by decide) (by decide) (by decide) (by decide) (by decide) (by decide)
    (by decide) 0 (by decide)

/-- The sync types of `NnSyncType` (nn-core.hpp). -/
inductive NnSyncType where
  | syncWithRoot
  | syncNodeSlices
  | syncNodeSlicesExceptRoot
  | syncPpSend
  | syncPpRecv
deriving DecidableEq, Repr

/-- Pipe indices registered by `buildLlmNetUneven` (llm.cpp:947-951):
POS = 0, TOK = 1, X = 2, LG = 3, ZQ = 4. -/
def xPipeIndex : ℕ := 2

def logitsPipeIndex : ℕ := 3

def zqPipeIndex : ℕ := 4

/-- The group-root of a sync group (`getGroupRootIndex`,
nn-network.cpp:43-50). -/
def getGroupRootIndex (stage : Option NnStageConfig) : ℕ :=
  match stage with
  | some st => st.rootNodeIndex
  | none => 0

/-- The target-node selection loop of `syncNodeSlices`
(nn-network.cpp:757-791): group members other than self; in
worker-to-root mode a non-root member only talks to the group root. -/
def syncNodeSlicesTargets (onlyFromWorkerToRoot : Bool)
    (stage : Option NnStageConfig) (nTotalNodes myNodeIndex : ℕ) : List ℕ :=
  let groupNodes :=
    match stage with
    | some st => st.nodeIndices
    | none => List.range nTotalNodes
  (groupNodes.filter (fun t => t != myNodeIndex)).filter (fun t =>
    if onlyFromWorkerToRoot ∧ myNodeIndex ≠ getGroupRootIndex stage then
      t == getGroupRootIndex stage
    else true)

/-- The send I/Os of `syncNodeSlices` (nn-network.cpp:810-830), totalled over
all threads (the threads partition the target-socket list): one copy of this
node's own slice to each target. In worker-to-root mode the group root sends
nothing. -/
def syncNodeSlicesSends (onlyFromWorkerToRoot : Bool)
    (plan : Option NnUnevenPartitionPlan) (stage : Option NnStageConfig)
    (nTotalNodes myNodeIndex nBytes : ℕ) : List (ℕ × ℕ) :=
  if onlyFromWorkerToRoot ∧ myNodeIndex = getGroupRootIndex stage then []
  else
    (syncNodeSlicesTargets onlyFromWorkerToRoot stage nTotalNodes myNodeIndex).map
      fun t =>
        (t, ((fillUnevenSlices plan nTotalNodes nBytes).getD myNodeIndex (0, 0)).2)

/-- The receive I/Os of `syncNodeSlices` (nn-network.cpp:832-848), totalled
over all threads: each target's own slice. In worker-to-root mode a non-root
member receives nothing. -/
def syncNodeSlicesRecvs (onlyFromWorkerToRoot : Bool)
    (plan : Option NnUnevenPartitionPlan) (stage : Option NnStageConfig)
    (nTotalNodes myNodeIndex nBytes : ℕ) : List (ℕ × ℕ) :=
  if onlyFromWorkerToRoot ∧ myNodeIndex ≠ getGroupRootIndex stage then []
  else
    (syncNodeSlicesTargets onlyFromWorkerToRoot stage nTotalNodes myNodeIndex).map
      fun t => (t, ((fillUnevenSlices plan nTotalNodes nBytes).getD t (0, 0)).2)

/-- **C5, counterexample.** For the plan of `exDefsC` (one stage, ratios 1:3)
and the 512-byte ZQ row that matches the dim split, node 0 sends
`(N-1) * sliceBytes(self) = 128` bytes but receives node 1's 384-byte slice:
the received total is not `(N-1) * sliceBytes(self)`. -/
theorem syncNodeSlices_recv_bytes_ne :
    createPartitionPlan exDefsC 6 6 96 96 128 = .ok exPlanC ∧
    ((syncNodeSlicesSends false (some exPlanC)
        (some ⟨0, 0, 1, 1, 0, 2, [0, 1]⟩) 2 0 512).map (·.2)).sum = 128 ∧
    ((syncNodeSlicesRecvs false (some exPlanC)
        (some ⟨0, 0, 1, 1, 0, 2, [0, 1]⟩) 2 0 512).map (·.2)).sum = 384 ∧
    (2 - 1) * ((fillUnevenSlices (some exPlanC) 2 512).getD 0 (0, 0)).2 = 128 ∧
    ¬ (384 = 128) := by
  refine ⟨by decide, by decide, by decide, by decide, by decide⟩

theorem planStages_cfg_shape (g nKv f dm v : ℕ) :
    ∀ (defs : List NnStageDef) (sIdx nodeOff layerOff : ℕ)
      (pieces : List StagePieces),
      planStages g nKv f dm v defs sIdx nodeOff layerOff = .ok pieces →
      ∀ pc ∈ pieces,
        pc.cfg.nodeIndices
          = (List.range pc.cfg.nNodes).map (· + pc.cfg.rootNodeIndex)
  | [] => by
    intro sIdx nodeOff layerOff pieces h pc hpc
    rw [planStages_nil_inv h] at hpc
    simp at hpc
  | d :: rest => by
    intro sIdx nodeOff layerOff pieces h pc hpc
    obtain ⟨kv, ffn, dmS, vc, tail, hkv, hffn, hdm, hvc, htail, rfl⟩ :=
      planStages_cons_inv h
    rcases List.mem_cons.mp hpc with rfl | hmem
    · rfl
    · exact planStages_cfg_shape g nKv f dm v rest _ _ _ tail htail pc hmem

theorem createPartitionPlan_ok_stage_nodes {defs : List NnStageDef}
    {nH nKv v f d : ℕ} {plan : NnUnevenPartitionPlan}
    (h : createPartitionPlan defs nH nKv v f d = .ok plan) :
    ∀ c ∈ plan.stages,
      c.nodeIndices = (List.range c.nNodes).map (· + c.rootNodeIndex) := by
  obtain ⟨hmod, pieces, hps, hstages, _⟩ := createPartitionPlan_ok_inv h
  intro c hc
  rw [hstages] at hc
  obtain ⟨pc, hpc, hcfg⟩ := List.mem_map.mp hc
  subst hcfg
  exact planStages_cfg_shape _ _ _ _ _ defs 0 0 0 pieces hps pc hpc

theorem filter_ne_length (me : ℕ) :
    ∀ l : List ℕ, l.Nodup → me ∈ l →
      (l.filter (fun t => t != me)).length = l.length - 1
  | [], _, hm => by simp at hm
  | a :: rest, hnd, hm => by
    have hnd2 := List.nodup_cons.mp hnd
    rcases List.mem_cons.mp hm with rfl | hmem
    · have hrest : rest.filter (fun t => t != me) = rest := by
        apply List.filter_eq_self.mpr
        intro b hb
        simp only [bne_iff_ne, ne_eq]
        rintro rfl
        exact hnd2.1 hb
      simp only [List.filter_cons, bne_self_eq_false, List.length_cons]
      rw [if_neg (by simp), hrest]
      omega
    · have ha : (a != me) = true := by
        simp only [bne_iff_ne, ne_eq]
        rintro rfl
        exact hnd2.1 hmem
      have hlen : 0 < rest.length := List.length_pos.mpr (by rintro rfl; simp at hmem)
      simp only [List.filter_cons, ha, if_pos, List.length_cons]
      rw [filter_ne_length me rest hnd2.2 hmem]
      omega

theorem map_const_snd_sum (k : ℕ) (l : List ℕ) :
    ((l.map (fun t => (t, k))).map (·.2)).sum = l.length * k := by
  induction l with
  | nil => simp
  | cons a rest ih =>
    simp only [List.map_cons, List.sum_cons, List.length_cons, ih]
    ring

/-- **C5, amended.** For every plan produced by `createPartitionPlan`, every
stage and every member node of that stage, a `SYNC_NODE_SLICES` over a pipe
row of `nBytes` bytes sends exactly `(N-1) * sliceBytes(self)` bytes (one
copy of this node's own slice to each of the `N-1` peers), and receives the
*sum of the peers' slice sizes* — which equals `(N-1) * sliceBytes(self)`
only when the slices are uniform. -/
theorem syncNodeSlices_byte_totals {defs : List NnStageDef}
    {nH nKv v f d : ℕ} {plan : NnUnevenPartitionPlan}
    (h : createPartitionPlan defs nH nKv v f d = .ok plan) :
    ∀ c ∈ plan.stages, ∀ me ∈ c.nodeIndices, ∀ nBytes : ℕ,
      ((syncNodeSlicesSends false (some plan) (some c) plan.nNodes me
          nBytes).map (·.2)).sum
        = (c.nNodes - 1)
            * ((fillUnevenSlices (some plan) plan.nNodes nBytes).getD me (0, 0)).2 ∧
      ((syncNodeSlicesRecvs false (some plan) (some c) plan.nNodes me
          nBytes).map (·.2)).sum
        = ((c.nodeIndices.filter (fun t => t != me)).map
            (fun t => ((fillUnevenSlices (some plan) plan.nNodes nBytes).getD
              t (0, 0)).2)).sum := by
  intro c hc me hme nBytes
  have hshape := createPartitionPlan_ok_stage_nodes h c hc
  have hnodup : c.nodeIndices.Nodup := by
    rw [hshape]
    exact (List.nodup_range _).map (fun a b => by omega)
  have hlen : c.nodeIndices.length = c.nNodes := by
    rw [hshape]; simp
  have htargets : syncNodeSlicesTargets false (some c) plan.nNodes me
      = c.nodeIndices.filter (fun t => t != me) := by
    unfold syncNodeSlicesTargets
    rw [List.filter_eq_self.mpr]
    intro b _
    simp
  constructor
  · unfold syncNodeSlicesSends
    rw [if_neg (by simp)]
    rw [htargets, map_const_snd_sum, filter_ne_length me c.nodeIndices hnodup hme,
      hlen]
  · unfold syncNodeSlicesRecvs
    rw [if_neg (by simp)]
    rw [htargets, List.map_map]
    rfl

theorem syncNodeSlices_byte_totals_witness :
    ((syncNodeSlicesSends false (some exPlanC)
        (some ⟨0, 0, 1, 1, 0, 2, [0, 1]⟩) 2 0 512).map (·.2)).sum
      = (2 - 1) * ((fillUnevenSlices (some exPlanC) 2 512).getD 0 (0, 0)).2 :=
  (syncNodeSlices_byte_totals (by decide : createPartitionPlan exDefsC 6 6 96 96 128
      = .ok exPlanC) ⟨0, 0, 1, 1, 0, 2, [0, 1]⟩ (by decide) 0 (by decide) 512).1

/-- The per-node sync schedule emitted by `buildLlmNodeInternal`
(llm.cpp:736-930), keeping only the `addSync` calls of each segment (the ops
are irrelevant to the sync claims): the start segment (X broadcast on the
first stage), the PP-receive segment (on later stages), per owned layer an
attention segment and an FFN segment each ending in `SYNC_NODE_SLICES` on the
ZQ pipe, the PP-send segment (on non-last stages), the end segment (logits
gather on the last stage) and the root-wait segment (node 0 off the last
stage). -/
def buildLlmNodeSyncSchedule (nodeIndex startLayer endLayer : ℕ)
    (isFirstStage isLastStage : Bool) : List (List (ℕ × NnSyncType)) :=
  [if isFirstStage then [(xPipeIndex, NnSyncType.syncWithRoot)] else []]
  ++ (if isFirstStage then []
      else [[(xPipeIndex, NnSyncType.syncPpRecv),
             (xPipeIndex, NnSyncType.syncWithRoot)]])
  ++ ((List.range' startLayer (endLayer - startLayer)).map fun _ =>
        [[(zqPipeIndex, NnSyncType.syncNodeSlices)],
         [(zqPipeIndex, NnSyncType.syncNodeSlices)]]).flatten
  ++ (if isLastStage then [] else [[(xPipeIndex, NnSyncType.syncPpSend)]])
  ++ [if isLastStage then [(logitsPipeIndex, NnSyncType.syncNodeSlicesExceptRoot)]
      else []]
  ++ (if nodeIndex = 0 ∧ ¬ isLastStage then
        [[(logitsPipeIndex, NnSyncType.syncNodeSlicesExceptRoot)]]
      else [])

/-- `getStageForNode` (llm.cpp:181-191): the first stage whose node list
contains the node. -/
def getStageForNode (plan : NnUnevenPartitionPlan) (nodeIndex : ℕ) :
    Option NnStageConfig :=
  if plan.nStages = 0 then none
  else plan.stages.find? (fun st => st.nodeIndices.contains nodeIndex)

/-- The per-node schedule as `buildLlmNetUneven` (llm.cpp:958-977) derives
it: stage lookup determines the layer range and first/last-stage flags. -/
def buildLlmNodeSyncsFromPlan (plan : NnUnevenPartitionPlan)
    (nLayers nodeIndex : ℕ) : List (List (ℕ × NnSyncType)) :=
  match getStageForNode plan nodeIndex with
  | some st =>
    buildLlmNodeSyncSchedule nodeIndex st.startLayer st.endLayer
      (st.stageIndex == 0) (st.stageIndex == plan.nStages - 1)
  | none => buildLlmNodeSyncSchedule nodeIndex 0 nLayers true true

/-- One stage, a single TP member, two layers. -/
def exDefsD : List NnStageDef := [⟨2, [⟨1, 1⟩]⟩]

/-- The plan `createPartitionPlan exDefsD 2 2 64 64 64` produces: one
singleton stage owning both layers. -/
def exPlanD : NnUnevenPartitionPlan :=
  { nNodes := 1, nStages := 1, stages := [⟨0, 0, 2, 2, 0, 1, [0]⟩],
    headSplit := [(0, 2)], kvHeadSplit := [(0, 2)],
    vocabSplit := [(0, 64)], ffnSplit := [(0, 64)], dimSplit := [(0, 64)] }

/-- **C8, counterexample.** For the singleton-stage plan of `exDefsD`, the
graph builder still emits `SYNC_NODE_SLICES` syncs in node 0's segment
schedule (one per layer segment): the claim that no such sync is emitted for
a one-node stage is false. -/
theorem buildLlmNode_singleton_emits_nodeSlices :
    createPartitionPlan exDefsD 2 2 64 64 64 = .ok exPlanD ∧
    (exPlanD.stages.getD 0 ⟨0, 0, 0, 0, 0, 0, []⟩).nNodes = 1 ∧
    (zqPipeIndex, NnSyncType.syncNodeSlices)
      ∈ (buildLlmNodeSyncsFromPlan exPlanD 2 0).flatten := by
  refine ⟨by decide, rfl, by decide⟩

/-- **C8, amended.** The builder *does* emit `SYNC_NODE_SLICES` for every
owned layer even when the stage has a single node (second conjunct, for any
stage with at least one layer); what holds instead is that the sync is a
runtime no-op for a singleton stage: `syncNodeSlices` selects no target
sockets there, so zero bytes are sent and received (first conjunct). -/
theorem singleton_stage_nodeSlices_noop {defs : List NnStageDef}
    {nH nKv v f d : ℕ} {plan : NnUnevenPartitionPlan}
    (h : createPartitionPlan defs nH nKv v f d = .ok plan) :
    (∀ c ∈ plan.stages, c.nNodes = 1 → ∀ me ∈ c.nodeIndices, ∀ nBytes : ℕ,
      syncNodeSlicesTargets false (some c) plan.nNodes me = [] ∧
      ((syncNodeSlicesSends false (some plan) (some c) plan.nNodes me
          nBytes).map (·.2)).sum = 0 ∧
      ((syncNodeSlicesRecvs false (some plan) (some c) plan.nNodes me
          nBytes).map (·.2)).sum = 0) ∧
    (∀ (nodeIndex sl el : ℕ) (fs ls : Bool), sl < el →
      (zqPipeIndex, NnSyncType.syncNodeSlices)
        ∈ (buildLlmNodeSyncSchedule nodeIndex sl el fs ls).flatten) := by
  constructor
  · intro c hc h1 me hme nBytes
    have hshape := createPartitionPlan_ok_stage_nodes h c hc
    rw [h1] at hshape
    have hsingle : c.nodeIndices = [c.rootNodeIndex] := by
      rw [hshape, show List.range 1 = [0] by decide, List.map_cons, List.map_nil,
        Nat.zero_add]
    rw [hsingle] at hme
    have hmeq : me = c.rootNodeIndex := by simpa using hme
    have htargets : syncNodeSlicesTargets false (some c) plan.nNodes me = [] := by
      simp [syncNodeSlicesTargets, getGroupRootIndex, hsingle, hmeq]
    refine ⟨htargets, ?_, ?_⟩
    · unfold syncNodeSlicesSends
      rw [if_neg (by simp), htargets]
      rfl
    · unfold syncNodeSlicesRecvs
      rw [if_neg (by simp), htargets]
      rfl
  · intro nodeIndex sl el fs ls hlt
    apply List.mem_flatten.mpr
    refine ⟨[(zqPipeIndex, NnSyncType.syncNodeSlices)], ?_, by simp⟩
    unfold buildLlmNodeSyncSchedule
    have hmem : [[(zqPipeIndex, NnSyncType.syncNodeSlices)],
        [(zqPipeIndex, NnSyncType.syncNodeSlices)]]
        ∈ (List.range' sl (el - sl)).map fun _ =>
          [[(zqPipeIndex, NnSyncType.syncNodeSlices)],
           [(zqPipeIndex, NnSyncType.syncNodeSlices)]] := by
      apply List.mem_map.mpr
      refine ⟨sl, ?_, rfl⟩
      have : 0 < el - sl := by omega
      exact List.mem_range'_1.mpr ⟨le_refl sl, by omega⟩
    have hin : [(zqPipeIndex, NnSyncType.syncNodeSlices)]
        ∈ ((List.range' sl (el - sl)).map fun _ =>
          [[(zqPipeIndex, NnSyncType.syncNodeSlices)],
           [(zqPipeIndex, NnSyncType.syncNodeSlices)]]).flatten :=
      List.mem_flatten.mpr ⟨_, hmem, by simp⟩
    simp only [List.append_assoc]
    exact List.mem_append_right _ (List.mem_append_right _
      (List.mem_append_left _ hin))

theorem singleton_stage_nodeSlices_noop_witness :
    syncNodeSlicesTargets false (some ⟨0, 0, 2, 2, 0, 1, [0]⟩) 1 0 = [] ∧
    (zqPipeIndex, NnSyncType.syncNodeSlices)
      ∈ (buildLlmNodeSyncSchedule 0 0 2 true true).flatten :=
  ⟨((singleton_stage_nodeSlices_noop (by decide : createPartitionPlan exDefsD
      2 2 64 64 64 = .ok exPlanD)).1 ⟨0, 0, 2, 2, 0, 1, [0]⟩ (by decide) rfl 0
      (by decide) 512).1,
   (singleton_stage_nodeSlices_noop (by decide : createPartitionPlan exDefsD
      2 2 64 64 64 = .ok exPlanD)).2 0 0 2 true true (by decide)⟩

/-- `NnFloatType` (nn-core.hpp). -/
inductive NnFloatType where
  | f32
  | f16
  | q40
  | q80
deriving DecidableEq, Repr

/-- `getBlockSize` (nn-core.cpp:31-41). Modelled from the spec: the
`Q40_BLOCK_SIZE`/`Q80_BLOCK_SIZE` constants live in nn-quants.hpp, which is
not part of the provided sources; the spec describes the formats as
block-quantized with fixed block sizes, taken here as the standard 32. -/
def getBlockSize : NnFloatType → ℕ
  | .f32 => 1
  | .f16 => 1
  | .q40 => 32
  | .q80 => 32

/-- `getBytes` (nn-core.cpp:15-29). Modelled from the spec: byte size of `n`
elements is `n / blockSize * sizeof(block)` with the standard block struct
sizes 18 (Q40) and 34 (Q80); F32/F16 are 4 and 2 bytes per element. -/
def getBytes (t : NnFloatType) (n : ℕ) : ℕ :=
  match t with
  | .f32 => n * 4
  | .f16 => n * 2
  | .q40 => n / 32 * 18
  | .q80 => n / 32 * 34

/-- `size2D(type, y, x).nBytes` (nn-core.cpp:117-137): bytes of `y * x`
elements. -/
def size2DBytes (t : NnFloatType) (y x : ℕ) : ℕ := getBytes t (y * x)

/-- `LlmArchType` (llm.hpp). -/
inductive LlmArchType where
  | llama
  | qwen3
  | qwen3Moe
deriving DecidableEq, Repr

/-- The header fields `loadLlmNetWeightUneven` and `calculateLayerBytes`
consult (llm.hpp / llm.cpp:137-138: `qDim = headDim * nHeads`,
`kvDim = headDim * nKvHeads`). -/
structure LlmHeader where
  archType : LlmArchType
  weightType : NnFloatType
  dim : ℕ
  qDim : ℕ
  kvDim : ℕ
  headDim : ℕ
  hiddenDim : ℕ
  moeHiddenDim : ℕ
  nExperts : ℕ
  vocabSize : ℕ
deriving DecidableEq, Repr

/-- `net->moeGateSize.nBytes` = `size2D(F_32, dim, nExperts)`
(llm.cpp:943). -/
def moeGateBytes (h : LlmHeader) : ℕ := size2DBytes .f32 h.dim h.nExperts

/-- `net->rmsNormSize.nBytes` = `size1D(F_32, dim)` (llm.cpp:941). -/
def rmsNormBytes (h : LlmHeader) : ℕ := getBytes .f32 h.dim

/-- `net->qkRmsNormSize.nBytes` = `size1D(F_32, headDim)` (llm.cpp:942). -/
def qkRmsNormBytes (h : LlmHeader) : ℕ := getBytes .f32 h.headDim

/-- `calculateLayerBytes` (llm.cpp:38-63). -/
def calculateLayerBytes (h : LlmHeader) : ℕ :=
  let ffDim := if h.archType = .qwen3Moe then h.moeHiddenDim else h.hiddenDim
  size2DBytes h.weightType h.dim h.qDim
  + size2DBytes h.weightType h.dim h.kvDim * 2
  + size2DBytes h.weightType h.qDim h.dim
  + (if 0 < h.nExperts then
      moeGateBytes h
        + h.nExperts * (size2DBytes h.weightType h.dim ffDim * 2
            + size2DBytes h.weightType ffDim h.dim)
    else
      size2DBytes h.weightType h.dim ffDim * 2
        + size2DBytes h.weightType ffDim h.dim)
  + (if h.archType = .qwen3 ∨ h.archType = .qwen3Moe then
      qkRmsNormBytes h * 2
    else 0)
  + rmsNormBytes h * 2

/-- `NnRowMatmulSliceUneven` (nn-core.hpp), byte-level view. -/
structure NnRowMatmulSliceUneven where
  type : NnFloatType
  inStart : ℕ
  inLen : ℕ
  d0 : ℕ
  n : ℕ
  sizeBytes : ℕ
  sliceSizeBytes : ℕ
deriving DecidableEq, Repr

/-- `NnColMatmulSliceUneven` (nn-core.hpp), byte-level view. -/
structure NnColMatmulSliceUneven where
  type : NnFloatType
  outStart : ℕ
  outLen : ℕ
  n : ℕ
  n0 : ℕ
  d : ℕ
  sizeBytes : ℕ
  sliceSizeBytes : ℕ
deriving DecidableEq, Repr

/-- `sliceRowMatmulAttUneven` (nn-core.cpp:569-592): Q/K/V slices from a head
split, scaled by `headDim`; `size` is the full weight, `sliceSize` the node's
rows. -/
def sliceRowMatmulAttUneven (t : NnFloatType) (globalInDim headDim : ℕ)
    (split : List (ℕ × ℕ)) (globalOutDim nodeIndex : ℕ) : NnRowMatmulSliceUneven :=
  let headStart := (split.getD nodeIndex (0, 0)).1
  let headLen := (split.getD nodeIndex (0, 0)).2
  { type := t, inStart := headStart * headDim, inLen := headLen * headDim,
    d0 := headLen * headDim, n := globalInDim,
    sizeBytes := size2DBytes t globalInDim globalOutDim,
    sliceSizeBytes := size2DBytes t globalInDim (headLen * headDim) }

/-- `sliceColMatmulAttUneven` (nn-core.cpp:595-619): the Wo slice. -/
def sliceColMatmulAttUneven (t : NnFloatType) (globalInDimQ globalOutDim headDim : ℕ)
    (plan : NnUnevenPartitionPlan) (nodeIndex : ℕ) : NnColMatmulSliceUneven :=
  let headStart := (plan.headSplit.getD nodeIndex (0, 0)).1
  let headLen := (plan.headSplit.getD nodeIndex (0, 0)).2
  { type := t, outStart := headStart * headDim, outLen := headLen * headDim,
    n := globalInDimQ, n0 := headLen * headDim, d := globalOutDim,
    sizeBytes := size2DBytes t globalInDimQ globalOutDim,
    sliceSizeBytes := size2DBytes t (headLen * headDim) globalOutDim }

/-- `sliceRowMatmulFfnUneven` (nn-core.cpp:622-641). -/
def sliceRowMatmulFfnUneven (t : NnFloatType) (globalInDim globalFfnDim : ℕ)
    (plan : NnUnevenPartitionPlan) (nodeIndex : ℕ) : NnRowMatmulSliceUneven :=
  let inStart := (plan.ffnSplit.getD nodeIndex (0, 0)).1
  let inLen := (plan.ffnSplit.getD nodeIndex (0, 0)).2
  { type := t, inStart := inStart, inLen := inLen, d0 := inLen, n := globalInDim,
    sizeBytes := size2DBytes t globalInDim globalFfnDim,
    sliceSizeBytes := size2DBytes t globalInDim inLen }

/-- `sliceColMatmulFfnUneven` (nn-core.cpp:644-664). -/
def sliceColMatmulFfnUneven (t : NnFloatType) (globalFfnDim globalOutDim : ℕ)
    (plan : NnUnevenPartitionPlan) (nodeIndex : ℕ) : NnColMatmulSliceUneven :=
  let outStart := (plan.ffnSplit.getD nodeIndex (0, 0)).1
  let outLen := (plan.ffnSplit.getD nodeIndex (0, 0)).2
  { type := t, outStart := outStart, outLen := outLen,
    n := globalFfnDim, n0 := outLen, d := globalOutDim,
    sizeBytes := size2DBytes t globalFfnDim globalOutDim,
    sliceSizeBytes := size2DBytes t outLen globalOutDim }

/-- `sliceRowMatmulLogitsUneven` (nn-core.cpp:666-677). -/
def sliceRowMatmulLogitsUneven (t : NnFloatType) (globalInDim globalVocabSize : ℕ)
    (plan : NnUnevenPartitionPlan) (nodeIndex : ℕ) : NnRowMatmulSliceUneven :=
  let inStart := (plan.vocabSplit.getD nodeIndex (0, 0)).1
  let inLen := (plan.vocabSplit.getD nodeIndex (0, 0)).2
  { type := t, inStart := inStart, inLen := inLen, d0 := inLen, n := globalInDim,
    sizeBytes := size2DBytes t globalInDim globalVocabSize,
    sliceSizeBytes := size2DBytes t globalInDim inLen }

/-- `NnLocalWeightLoader::loadRowMatmulSlicesUneven`
(nn-network-local.cpp:48-83): validates block alignment of the input
dimension, loads the node's contiguous rows zero-copy, and returns the
tensor's *global* byte size so the caller's file pointer skips the whole
tensor. -/
def loadRowMatmulSlicesUneven (s : NnRowMatmulSliceUneven) : Except String ℕ :=
  if s.n % getBlockSize s.type ≠ 0 then
    .error "RowMatmul input dim not aligned to block size"
  else .ok s.sizeBytes

/-- `NnLocalWeightLoader::loadColMatmulSlicesUneven`
(nn-network-local.cpp:85-105): gathers the strided columns into a temp
buffer and returns the tensor's *global* byte size. -/
def loadColMatmulSlicesUneven (s : NnColMatmulSliceUneven) : ℕ := s.sizeBytes

/-- The per-expert loop of the MoE branch of `loadLlmNetWeightUneven`
(llm.cpp:1113-1120): W1 (row), W2 (col), W3 (row) per expert. -/
def llmLoadExpertLoop (h : LlmHeader) (ffDim : ℕ) (plan : NnUnevenPartitionPlan)
    (nodeIndex : ℕ) : ℕ → Except String ℕ
  | 0 => .ok 0
  | n + 1 => do
    let w1 ← loadRowMatmulSlicesUneven
      (sliceRowMatmulFfnUneven h.weightType h.dim ffDim plan nodeIndex)
    let w2 := loadColMatmulSlicesUneven
      (sliceColMatmulFfnUneven h.weightType ffDim h.dim plan nodeIndex)
    let w3 ← loadRowMatmulSlicesUneven
      (sliceRowMatmulFfnUneven h.weightType h.dim ffDim plan nodeIndex)
    let rest ← llmLoadExpertLoop h ffDim plan nodeIndex n
    .ok (w1 + w2 + w3 + rest)

/-- The owned-layer branch of `loadLlmNetWeightUneven` (llm.cpp:1096-1151):
load Q/K/V/Wo, the FFN or MoE weights, the norms, and verify that the
advanced byte count equals `calculateLayerBytes` (hard error otherwise). -/
def llmLoadOwnedLayerBytes (h : LlmHeader) (plan : NnUnevenPartitionPlan)
    (nodeIndex : ℕ) : Except String ℕ := do
  let ffDim := if h.archType = .qwen3Moe then h.moeHiddenDim else h.hiddenDim
  let q ← loadRowMatmulSlicesUneven
    (sliceRowMatmulAttUneven h.weightType h.dim h.headDim plan.headSplit h.qDim nodeIndex)
  let k ← loadRowMatmulSlicesUneven
    (sliceRowMatmulAttUneven h.weightType h.dim h.headDim plan.kvHeadSplit h.kvDim nodeIndex)
  let v ← loadRowMatmulSlicesUneven
    (sliceRowMatmulAttUneven h.weightType h.dim h.headDim plan.kvHeadSplit h.kvDim nodeIndex)
  let wo := loadColMatmulSlicesUneven
    (sliceColMatmulAttUneven h.weightType h.qDim h.dim h.headDim plan nodeIndex)
  let ffnBytes ←
    if 0 < h.nExperts then do
      let experts ← llmLoadExpertLoop h ffDim plan nodeIndex h.nExperts
      pure (moeGateBytes h + experts)
    else do
      let w1 ← loadRowMatmulSlicesUneven
        (sliceRowMatmulFfnUneven h.weightType h.dim ffDim plan nodeIndex)
      let w2 := loadColMatmulSlicesUneven
        (sliceColMatmulFfnUneven h.weightType ffDim h.dim plan nodeIndex)
      let w3 ← loadRowMatmulSlicesUneven
        (sliceRowMatmulFfnUneven h.weightType h.dim ffDim plan nodeIndex)
      pure (w1 + w2 + w3)
  let normBytes :=
    (if h.archType = .qwen3 ∨ h.archType = .qwen3Moe then qkRmsNormBytes h * 2
     else 0) + rmsNormBytes h * 2
  let actualBytes := q + k + v + wo + ffnBytes + normBytes
  if actualBytes ≠ calculateLayerBytes h then
    .error "Weight file alignment error"
  else .ok actualBytes

/-- The per-layer file-pointer advance of `loadLlmNetWeightUneven`
(llm.cpp:1089-1156): an owned layer is loaded and verified, a skipped layer
advances by the precomputed `calculateLayerBytes`. -/
def llmLoadLayerAdvance (h : LlmHeader) (plan : NnUnevenPartitionPlan)
    (nodeIndex : ℕ) (isMyLayer : Bool) : Except String ℕ :=
  if isMyLayer then llmLoadOwnedLayerBytes h plan nodeIndex
  else .ok (calculateLayerBytes h)

theorem loadRowAtt_ok (t : NnFloatType) (gI hD gO i : ℕ) (split : List (ℕ × ℕ))
    (hg : gI % getBlockSize t = 0) :
    loadRowMatmulSlicesUneven (sliceRowMatmulAttUneven t gI hD split gO i)
      = .ok (size2DBytes t gI gO) := by
  simp [loadRowMatmulSlicesUneven, sliceRowMatmulAttUneven, hg]

theorem loadRowFfn_ok (t : NnFloatType) (gI gF i : ℕ) (p : NnUnevenPartitionPlan)
    (hg : gI % getBlockSize t = 0) :
    loadRowMatmulSlicesUneven (sliceRowMatmulFfnUneven t gI gF p i)
      = .ok (size2DBytes t gI gF) := by
  simp [loadRowMatmulSlicesUneven, sliceRowMatmulFfnUneven, hg]

theorem loadRowLogits_ok (t : NnFloatType) (gI gV i : ℕ) (p : NnUnevenPartitionPlan)
    (hg : gI % getBlockSize t = 0) :
    loadRowMatmulSlicesUneven (sliceRowMatmulLogitsUneven t gI gV p i)
      = .ok (size2DBytes t gI gV) := by
  simp [loadRowMatmulSlicesUneven, sliceRowMatmulLogitsUneven, hg]

theorem llmLoadExpertLoop_ok (h : LlmHeader) (ffDim : ℕ)
    (plan : NnUnevenPartitionPlan) (nodeIndex : ℕ)
    (hdim : h.dim % getBlockSize h.weightType = 0) :
    ∀ n, llmLoadExpertLoop h ffDim plan nodeIndex n
      = .ok (n * (size2DBytes h.weightType h.dim ffDim * 2
          + size2DBytes h.weightType ffDim h.dim))
  | 0 => by simp [llmLoadExpertLoop]
  | n + 1 => by
    have ih := llmLoadExpertLoop_ok h ffDim plan nodeIndex hdim n
    simp only [llmLoadExpertLoop, loadRowFfn_ok _ _ _ _ _ hdim,
      loadColMatmulSlicesUneven, sliceColMatmulFfnUneven, bind, Except.bind, ih]
    congr 1
    ring

theorem llmLoadOwnedLayerBytes_ok (h : LlmHeader) (plan : NnUnevenPartitionPlan)
    (nodeIndex : ℕ) (hdim : h.dim % getBlockSize h.weightType = 0) :
    llmLoadOwnedLayerBytes h plan nodeIndex = .ok (calculateLayerBytes h) := by
  unfold llmLoadOwnedLayerBytes
  simp only [loadRowAtt_ok _ _ _ _ _ _ hdim, loadRowFfn_ok _ _ _ _ _ hdim,
    llmLoadExpertLoop_ok h _ plan nodeIndex hdim,
    loadColMatmulSlicesUneven, sliceColMatmulAttUneven, sliceColMatmulFfnUneven,
    bind, Except.bind, pure]
  unfold calculateLayerBytes
  by_cases hexp : 0 < h.nExperts <;>
    by_cases hqk : h.archType = .qwen3 ∨ h.archType = .qwen3Moe <;>
      simp only [hexp, hqk, if_true, if_false]
  all_goals
    simp only [Except.pure]
    rw [if_neg (by omega)]
    congr 1
    omega

/-- **C6.** During local slice loading, every transformer layer advances the
file pointer by exactly the precomputed `calculateLayerBytes` total — the
owned branch (loaded and verified against that total, with the hard
"Weight file alignment error" on mismatch) and the skip branch advance by the
same amount, so the verification never fires — and every per-tensor loading
call returns the tensor's *global* byte size, independent of which node's
slice was copied. -/
theorem loadLlmNetWeightUneven_layer_exact
    (h : LlmHeader) (plan : NnUnevenPartitionPlan) (nodeIndex : ℕ) (own : Bool)
    (hdim : h.dim % getBlockSize h.weightType = 0) :
    llmLoadLayerAdvance h plan nodeIndex own = .ok (calculateLayerBytes h) ∧
    (∀ (t : NnFloatType) (gI hD gO i : ℕ) (split : List (ℕ × ℕ)),
      gI % getBlockSize t = 0 →
      loadRowMatmulSlicesUneven (sliceRowMatmulAttUneven t gI hD split gO i)
        = .ok (size2DBytes t gI gO)) ∧
    (∀ (t : NnFloatType) (gI gF i : ℕ) (p : NnUnevenPartitionPlan),
      gI % getBlockSize t = 0 →
      loadRowMatmulSlicesUneven (sliceRowMatmulFfnUneven t gI gF p i)
        = .ok (size2DBytes t gI gF)) ∧
    (∀ (t : NnFloatType) (gI gV i : ℕ) (p : NnUnevenPartitionPlan),
      gI % getBlockSize t = 0 →
      loadRowMatmulSlicesUneven (sliceRowMatmulLogitsUneven t gI gV p i)
        = .ok (size2DBytes t gI gV)) ∧
    (∀ (t : NnFloatType) (gIQ gO hD i : ℕ) (p : NnUnevenPartitionPlan),
      loadColMatmulSlicesUneven (sliceColMatmulAttUneven t gIQ gO hD p i)
        = size2DBytes t gIQ gO) ∧
    (∀ (t : NnFloatType) (gF gO i : ℕ) (p : NnUnevenPartitionPlan),
      loadColMatmulSlicesUneven (sliceColMatmulFfnUneven t gF gO p i)
        = size2DBytes t gF gO) := by
  refine ⟨?_, loadRowAtt_ok, loadRowFfn_ok, loadRowLogits_ok,
    fun t gIQ gO hD i p => rfl, fun t gF gO i p => rfl⟩
  cases own with
  | false => rfl
  | true =>
    simp only [llmLoadLayerAdvance, if_pos]
    exact llmLoadOwnedLayerBytes_ok h plan nodeIndex hdim

/-- A small F32 LLaMA-style header for concrete evaluation. -/
def exHeaderA : LlmHeader :=
  { archType := .llama, weightType := .f32, dim := 64, qDim := 64, kvDim := 64,
    headDim := 8, hiddenDim := 128, moeHiddenDim := 0, nExperts := 0,
    vocabSize := 100 }

theorem loadLlmNetWeightUneven_layer_exact_witness :
    llmLoadLayerAdvance exHeaderA exPlanC 0 true
      = .ok (calculateLayerBytes exHeaderA) :=
  (loadLlmNetWeightUneven_layer_exact exHeaderA exPlanC 0 true (by decide)).1

/-- The auto-stage index collection of `autoAssignLayers` (app.cpp:403-410):
positions whose layer count is 0. -/
def autoIndicesOf (stageLayers : List ℕ) : List ℕ :=
  (List.range stageLayers.length).filter (fun i => stageLayers.getD i 0 == 0)

/-- The explicit layer total of `autoAssignLayers` (app.cpp:402-410). -/
def explicitLayersOf (stageLayers : List ℕ) : ℕ :=
  (stageLayers.filter (fun l => l != 0)).sum

/-- The proportional branch of `autoAssignLayers` (app.cpp:445-459): each
auto stage gets the rounded share clamped to what is left; the last auto
stage absorbs the remainder. -/
def propLoop (remaining : ℕ) (totalWeight : Fr) :
    List (ℕ × Fr) → ℕ → List (ℕ × ℕ)
  | [], _ => []
  | [(idx, _)], alloc => [(idx, remaining - alloc)]
  | (idx, w) :: p2 :: rest, alloc =>
    let my0 := roundQ (Fr.scale remaining (Fr.div w totalWeight))
    let my := if remaining < alloc + my0 then remaining - alloc else my0
    (idx, my) :: propLoop remaining totalWeight (p2 :: rest) (alloc + my)

/-- `autoAssignLayers` (app.cpp:400-460), over per-stage layer counts
(0 = auto) and the stage weights. The uniform fallback gives every auto
stage `remaining / k` layers and the first `remaining % k` auto stages one
extra layer (`i < rem` in the source). -/
def autoAssignLayers (nLayers : ℕ) (stageLayers : List ℕ)
    (stageWeights : List Fr) : Except String (List ℕ) :=
  let autoIdx := autoIndicesOf stageLayers
  let totalExplicit := explicitLayersOf stageLayers
  if nLayers < totalExplicit then
    .error "Explicit layers count exceeds total model layers"
  else
    let remaining := nLayers - totalExplicit
    if autoIdx.isEmpty then
      if remaining ≠ 0 then
        .error "Explicit layers sum does not match total model layers"
      else .ok stageLayers
    else
      let w := autoIdx.map (fun i => stageWeights.getD i ⟨0, 1⟩)
      if Fr.ble (Fr.sum w) ⟨1, 1000000⟩ then
        .ok ((List.range stageLayers.length).map fun p =>
          if stageLayers.getD p 0 = 0 then
            (nLayers - totalExplicit) / autoIdx.length
              + (if autoIdx.indexOf p < (nLayers - totalExplicit) % autoIdx.length
                 then 1 else 0)
          else stageLayers.getD p 0)
      else
        .ok ((List.range stageLayers.length).map fun p =>
          match (propLoop (nLayers - totalExplicit) (Fr.sum w)
              (autoIdx.map (fun i => (i, stageWeights.getD i ⟨0, 1⟩))) 0).lookup p with
          | some v => v
          | none => stageLayers.getD p 0)

/-- **C7, counterexample.** With 5 layers to distribute over two auto stages
of zero weight, the uniform fallback assigns `[3, 2]`: the extra layer goes
to the *leading* auto stage (`i < rem` in app.cpp:439), not to the trailing
one as claimed. -/
theorem autoAssignLayers_residue_not_trailing :
    autoAssignLayers 5 [0, 0] [⟨0, 1⟩, ⟨0, 1⟩] = .ok [3, 2] ∧
    ¬ (autoAssignLayers 5 [0, 0] [⟨0, 1⟩, ⟨0, 1⟩] = .ok [2, 3]) := by
  refine ⟨by decide, by decide⟩

theorem getD_map_range {β : Type} (f : ℕ → β) (d : β) (n p : ℕ) (hp : p < n) :
    (((List.range n).map f).getD p d) = f p := by
  rw [List.getD_eq_getElem _ _ (by simpa using hp)]
  simp

/-- **C7, amended.** When the weight sum of the auto stages is at most
`1e-6`, the remaining layers are distributed uniformly over the auto stages
with the rounding residue placed on the *leading* auto stages: the `r`-th
auto stage receives `remaining / k` layers plus one extra exactly when
`r < remaining % k`; explicit stages keep their layer counts. -/
theorem autoAssignLayers_uniform_leading
    (nLayers : ℕ) (stageLayers : List ℕ) (stageWeights : List Fr)
    (hexp : explicitLayersOf stageLayers ≤ nLayers)
    (hauto : autoIndicesOf stageLayers ≠ [])
    (hw : Fr.ble (Fr.sum ((autoIndicesOf stageLayers).map
        (fun i => stageWeights.getD i ⟨0, 1⟩))) ⟨1, 1000000⟩ = true) :
    ∃ l, autoAssignLayers nLayers stageLayers stageWeights = .ok l ∧
      l.length = stageLayers.length ∧
      (∀ p, p < stageLayers.length → stageLayers.getD p 0 ≠ 0 →
        l.getD p 0 = stageLayers.getD p 0) ∧
      (∀ r, r < (autoIndicesOf stageLayers).length →
        l.getD ((autoIndicesOf stageLayers).getD r 0) 0
          = (nLayers - explicitLayersOf stageLayers)
              / (autoIndicesOf stageLayers).length
            + (if r < (nLayers - explicitLayersOf stageLayers)
                  % (autoIndicesOf stageLayers).length
               then 1 else 0)) := by
  have hie : (autoIndicesOf stageLayers).isEmpty = false := by
    cases hA : autoIndicesOf stageLayers with
    | nil => exact absurd hA hauto
    | cons a t => rfl
  refine ⟨(List.range stageLayers.length).map fun p =>
      if stageLayers.getD p 0 = 0 then
        (nLayers - explicitLayersOf stageLayers)
            / (autoIndicesOf stageLayers).length
          + (if (autoIndicesOf stageLayers).indexOf p
                < (nLayers - explicitLayersOf stageLayers)
                    % (autoIndicesOf stageLayers).length
             then 1 else 0)
      else stageLayers.getD p 0, ?_, ?_, ?_, ?_⟩
  · unfold autoAssignLayers
    rw [if_neg (by omega), if_neg (by simp [hie]), if_pos hw]
  · simp
  · intro p hp hne
    rw [getD_map_range _ _ _ p hp, if_neg hne]
  · intro r hr
    have hnodup : (autoIndicesOf stageLayers).Nodup :=
      (List.nodup_range _).filter _
    have hgetD : (autoIndicesOf stageLayers).getD r 0
        = (autoIndicesOf stageLayers)[r] := by
      rw [List.getD_eq_getElem _ _ hr]
    have hmem : (autoIndicesOf stageLayers)[r] ∈ autoIndicesOf stageLayers :=
      List.getElem_mem hr
    have hlt : (autoIndicesOf stageLayers)[r] < stageLayers.length := by
      have := List.mem_filter.mp hmem
      simpa using List.mem_range.mp this.1
    have hzero : stageLayers.getD (autoIndicesOf stageLayers)[r] 0 = 0 := by
      have := (List.mem_filter.mp hmem).2
      simpa using this
    have hidx : (autoIndicesOf stageLayers).indexOf
        (autoIndicesOf stageLayers)[r] = r :=
      List.indexOf_getElem hnodup r hr
    rw [hgetD, getD_map_range _ _ _ _ hlt, if_pos hzero, hidx]

theorem autoAssignLayers_uniform_leading_witness :
    ∃ l, autoAssignLayers 5 [0, 0] [⟨0, 1⟩, ⟨0, 1⟩] = .ok l ∧
      l.length = 2 ∧
      (∀ p, p < 2 → [0, 0].getD p 0 ≠ 0 → l.getD p 0 = [0, 0].getD p 0) ∧
      (∀ r, r < (autoIndicesOf [0, 0]).length →
        l.getD ((autoIndicesOf [0, 0]).getD r 0) 0
          = (5 - explicitLayersOf [0, 0]) / (autoIndicesOf [0, 0]).length
            + (if r < (5 - explicitLayersOf [0, 0])
                  % (autoIndicesOf [0, 0]).length
               then 1 else 0)) := by
  have h := autoAssignLayers_uniform_leading 5 [0, 0] [⟨0, 1⟩, ⟨0, 1⟩]
    (by decide) (by decide) (by decide)
  simpa using h

/-- `LLM_BOOTSTRAP_MAGIC` (app.hpp): 'DLBM' little-endian. -/
def llmBootstrapMagic : ℕ := 0x4d424c44

/-- `LLM_BOOTSTRAP_VERSION` (app.hpp). -/
def llmBootstrapVersion : ℕ := 2

/-- `LLM_BOOTSTRAP_HAS_MODEL_PATH` (app.hpp): bit 0. -/
def llmBootstrapHasModelPath : ℕ := 1

/-- `LLM_BOOTSTRAP_HAS_RATIOS` (app.hpp): bit 1. -/
def llmBootstrapHasRatios : ℕ := 2

/-- `LlmBootstrapPacket` (app.hpp): eight u32 fields. -/
structure LlmBootstrapPacket where
  magic : ℕ
  version : ℕ
  flags : ℕ
  benchmarkEnabled : ℕ
  maxSeqLen : ℕ
  syncType : ℕ
  modelPathLen : ℕ
  ratiosLen : ℕ
deriving DecidableEq, Repr

/-- `writeBootstrapPacket` (app.cpp:33-56). The wire is modelled as a list of
naturals: one entry per u32 struct field, then one entry per transmitted
byte. Strings are byte lists without their terminating NUL; the writer sends
`strlen + 1` bytes including the NUL, and sets a flag bit per present
string. -/
def writeBootstrapPacket (benchmark : Bool) (maxSeqLen syncType : ℕ)
    (modelPath ratiosStr : Option (List ℕ)) : List ℕ :=
  let flags := (if modelPath.isSome then llmBootstrapHasModelPath else 0)
    + (if ratiosStr.isSome then llmBootstrapHasRatios else 0)
  let modelPathLen := match modelPath with
    | some s => s.length + 1
    | none => 0
  let ratiosLen := match ratiosStr with
    | some s => s.length + 1
    | none => 0
  [llmBootstrapMagic, llmBootstrapVersion, flags,
   if benchmark then 1 else 0, maxSeqLen, syncType, modelPathLen, ratiosLen]
  ++ (match modelPath with
      | some s => s ++ [0]
      | none => [])
  ++ (match ratiosStr with
      | some s => s ++ [0]
      | none => [])

/-- `readBootstrapPacket` (app.cpp:58-79): read the fixed struct, reject on
magic/version mismatch, then read each length-prefixed blob exactly when its
flag bit is set; `std::string::assign(buf.data())` keeps the bytes up to the
first NUL. -/
def readBootstrapPacket (wire : List ℕ) :
    Except String (LlmBootstrapPacket × List ℕ × List ℕ) :=
  match wire with
  | magic :: version :: flags :: bench :: maxSeq :: syncT :: mLen :: rLen :: rest =>
    if magic ≠ llmBootstrapMagic then
      .error "Invalid bootstrap magic (root/worker binary mismatch)"
    else if version ≠ llmBootstrapVersion then
      .error "Unsupported bootstrap version (root/worker binary mismatch)"
    else
      let modelPath :=
        if flags &&& llmBootstrapHasModelPath ≠ 0 then
          (rest.take mLen).takeWhile (fun b => b != 0)
        else []
      let rest2 :=
        if flags &&& llmBootstrapHasModelPath ≠ 0 then rest.drop mLen else rest
      let ratios :=
        if flags &&& llmBootstrapHasRatios ≠ 0 then
          (rest2.take rLen).takeWhile (fun b => b != 0)
        else []
      .ok (⟨magic, version, flags, bench, maxSeq, syncT, mLen, rLen⟩,
        modelPath, ratios)
  | _ => .error "Short bootstrap read"

theorem takeWhile_append_zero (s : List ℕ) (h : 0 ∉ s) :
    (s ++ [0]).takeWhile (fun b => b != 0) = s := by
  induction s with
  | nil => rfl
  | cons a t ih =>
    have ha : (a != 0) = true := by
      simp only [bne_iff_ne, ne_eq]
      rintro rfl
      exact h (by simp)
    simp only [List.cons_append, List.takeWhile_cons, ha, if_pos]
    rw [ih (fun hmem => h (by simp [hmem]))]

/-- C9: bootstrap round trip. Decoding an encoded bootstrap packet recovers
every header field (magic, version, flags, benchmarkEnabled, maxSeqLen,
syncType, and the two length fields) and both embedded strings, where each
string travels exactly when its flag bit is set; NUL-free strings are
required since the reader truncates at the first NUL of the transmitted
buffer. -/
theorem bootstrap_roundtrip (benchmark : Bool) (maxSeqLen syncType : ℕ)
    (modelPath ratiosStr : Option (List ℕ))
    (hm : ∀ s, modelPath = some s → 0 ∉ s)
    (hr : ∀ s, ratiosStr = some s → 0 ∉ s) :
    readBootstrapPacket
        (writeBootstrapPacket benchmark maxSeqLen syncType modelPath ratiosStr)
      = .ok
        (⟨llmBootstrapMagic, llmBootstrapVersion,
          (if modelPath.isSome then llmBootstrapHasModelPath else 0)
            + (if ratiosStr.isSome then llmBootstrapHasRatios else 0),
          if benchmark then 1 else 0, maxSeqLen, syncType,
          match modelPath with
          | some s => s.length + 1
          | none => 0,
          match ratiosStr with
          | some s => s.length + 1
          | none => 0⟩,
         modelPath.getD [], ratiosStr.getD []) := by
  cases modelPath with
  | none =>
    cases ratiosStr with
    | none =>
      have hw : writeBootstrapPacket benchmark maxSeqLen syncType none none
          = llmBootstrapMagic :: llmBootstrapVersion :: (0 + 0)
            :: (if benchmark then 1 else 0) :: maxSeqLen :: syncType
            :: 0 :: 0 :: ([] : List ℕ) := rfl
      have c1 : ¬((0 + 0) &&& llmBootstrapHasModelPath ≠ 0) := by decide
      have c2 : ¬((0 + 0) &&& llmBootstrapHasRatios ≠ 0) := by decide
      rw [hw]
      simp only [readBootstrapPacket]
      rw [if_neg (fun h => h rfl), if_neg (fun h => h rfl)]
      simp only [if_neg c1, if_neg c2]
      rfl
    | some r =>
      have hr0 : 0 ∉ r := hr r rfl
      have hw : writeBootstrapPacket benchmark maxSeqLen syncType none (some r)
          = llmBootstrapMagic :: llmBootstrapVersion
            :: (0 + llmBootstrapHasRatios)
            :: (if benchmark then 1 else 0) :: maxSeqLen :: syncType
            :: 0 :: (r.length + 1) :: (r ++ [0]) := rfl
      have c1 : ¬((0 + llmBootstrapHasRatios) &&& llmBootstrapHasModelPath ≠ 0) := by
        decide
      have c2 : (0 + llmBootstrapHasRatios) &&& llmBootstrapHasRatios ≠ 0 := by
        decide
      rw [hw]
      simp only [readBootstrapPacket]
      rw [if_neg (fun h => h rfl), if_neg (fun h => h rfl)]
      simp only [if_neg c1, if_pos c2]
      rw [List.take_of_length_le (by simp), takeWhile_append_zero r hr0]
      rfl
  | some m =>
    have hm0 : 0 ∉ m := hm m rfl
    cases ratiosStr with
    | none =>
      have hw : writeBootstrapPacket benchmark maxSeqLen syncType (some m) none
          = llmBootstrapMagic :: llmBootstrapVersion
            :: (llmBootstrapHasModelPath + 0)
            :: (if benchmark then 1 else 0) :: maxSeqLen :: syncType
            :: (m.length + 1) :: 0 :: ((m ++ [0]) ++ []) := rfl
      have c1 : (llmBootstrapHasModelPath + 0) &&& llmBootstrapHasModelPath ≠ 0 := by
        decide
      have c2 : ¬((llmBootstrapHasModelPath + 0) &&& llmBootstrapHasRatios ≠ 0) := by
        decide
      rw [hw]
      simp only [readBootstrapPacket]
      rw [if_neg (fun h => h rfl), if_neg (fun h => h rfl)]
      simp only [if_pos c1, if_neg c2]
      rw [List.append_nil, List.take_of_length_le (by simp),
        takeWhile_append_zero m hm0]
      rfl
    | some r =>
      have hr0 : 0 ∉ r := hr r rfl
      have hw : writeBootstrapPacket benchmark maxSeqLen syncType (some m) (some r)
          = llmBootstrapMagic :: llmBootstrapVersion
            :: (llmBootstrapHasModelPath + llmBootstrapHasRatios)
            :: (if benchmark then 1 else 0) :: maxSeqLen :: syncType
            :: (m.length + 1) :: (r.length + 1) :: ((m ++ [0]) ++ (r ++ [0])) := rfl
      have c1 : (llmBootstrapHasModelPath + llmBootstrapHasRatios)
          &&& llmBootstrapHasModelPath ≠ 0 := by decide
      have c2 : (llmBootstrapHasModelPath + llmBootstrapHasRatios)
          &&& llmBootstrapHasRatios ≠ 0 := by decide
      rw [hw]
      simp only [readBootstrapPacket]
      rw [if_neg (fun h => h rfl), if_neg (fun h => h rfl)]
      simp only [if_pos c1, if_pos c2]
      rw [List.take_left' (by simp), List.drop_left' (by simp),
        takeWhile_append_zero m hm0,
        List.take_of_length_le (by simp), takeWhile_append_zero r hr0]
      rfl

theorem bootstrap_roundtrip_witness :
    readBootstrapPacket
        (writeBootstrapPacket true 4096 1 (some [109, 46, 109]) (some [49, 58, 51]))
      = .ok (⟨llmBootstrapMagic, llmBootstrapVersion, 3, 1, 4096, 1, 4, 4⟩,
          [109, 46, 109], [49, 58, 51]) := by
  have h := bootstrap_roundtrip true 4096 1 (some [109, 46, 109]) (some [49, 58, 51])
    (fun s hs => by cases hs; decide) (fun s hs => by cases hs; decide)
  simpa using h

/-- One `recv` result in a socket trace: EAGAIN/EWOULDBLOCK, a hard socket
error (`r < 0`, not EAGAIN), or a delivery of `k` bytes (`k = 0` models the
peer closing the connection, matching `r == 0` in the code). -/
inductive RecvEv where
  | eagain : RecvEv
  | errr : RecvEv
  | data : ℕ → RecvEv
deriving DecidableEq, Repr

/-- Result of `tryReadSocket`: full message read (`return true`), retry
budget exhausted (`return false`), a thrown socket exception, or the trace
ran out of events while bytes were still owed (the code would keep blocking
in `recv`; no result is observable). -/
inductive ReadOutcome where
  | success : ReadOutcome
  | budgetExhausted : ReadOutcome
  | sockError : String → ReadOutcome
  | starved : ReadOutcome
deriving DecidableEq, Repr

/-- The `while (s > 0)` loop of `tryReadSocket` (nn-network.cpp:205-228),
driven by a trace of recv results; returns the outcome and the number of
bytes consumed. `s` is the remaining byte count, `size` the original
request. On EAGAIN the attempt counter is decremented only while
`s == size` and the budget is finite (`maxAttempts > 0`, where 0 means
infinite); when the decrement reaches zero the call returns false. A
delivery consumes `min k s` bytes (recv never returns more than
requested). -/
def tryReadLoop (size : ℕ) : List RecvEv → ℕ → ℕ → ReadOutcome × ℕ
  | [], s, _ =>
    if s = 0 then (.success, size) else (.starved, size - s)
  | ev :: rest, s, attempts =>
    if s = 0 then (.success, size)
    else
      match ev with
      | .eagain =>
        if s = size ∧ 0 < attempts then
          if attempts - 1 = 0 then (.budgetExhausted, size - s)
          else tryReadLoop size rest s (attempts - 1)
        else tryReadLoop size rest s attempts
      | .errr => (.sockError "Error reading from socket", size - s)
      | .data k =>
        if min k s = 0 then (.sockError "Socket closed", size - s)
        else tryReadLoop size rest (s - min k s) attempts

/-- `tryReadSocket` (nn-network.cpp:205): run the loop with `s = size`. -/
def tryReadSocket (size maxAttempts : ℕ) (evs : List RecvEv) :
    ReadOutcome × ℕ :=
  tryReadLoop size evs size maxAttempts

/-- `NnNetwork::tryReadWithMaxAttempts` (nn-network.cpp:543-550): forward to
`tryReadSocket`; on success add `size` to the per-socket received-bytes
counter and return true, on a false result leave it unchanged; thrown
exceptions propagate (modelled as `Except.error`). -/
def tryReadWithMaxAttempts (recvBytes size maxAttempts : ℕ)
    (evs : List RecvEv) : Except String (Bool × ℕ) :=
  match tryReadSocket size maxAttempts evs with
  | (.success, _) => .ok (true, recvBytes + size)
  | (.budgetExhausted, _) => .ok (false, recvBytes)
  | (.sockError msg, _) => .error msg
  | (.starved, _) => .error "Blocked in recv"

theorem tryReadLoop_budget_consumed (size : ℕ) :
    ∀ (evs : List RecvEv) (s attempts : ℕ), s ≤ size →
    (tryReadLoop size evs s attempts).1 = ReadOutcome.budgetExhausted →
    (tryReadLoop size evs s attempts).2 = 0 ∧ s = size := by
  intro evs
  induction evs with
  | nil =>
    intro s attempts hs h
    by_cases h0 : s = 0 <;> simp [tryReadLoop, h0] at h
  | cons ev rest ih =>
    intro s attempts hs h
    by_cases h0 : s = 0
    · simp [tryReadLoop, h0] at h
    · cases ev with
      | eagain =>
        simp only [tryReadLoop, if_neg h0] at h ⊢
        by_cases hc : s = size ∧ 0 < attempts
        · rw [if_pos hc] at h ⊢
          by_cases ha : attempts - 1 = 0
          · rw [if_pos ha] at h ⊢
            exact ⟨by simp [hc.1], hc.1⟩
          · rw [if_neg ha] at h ⊢
            exact ih s (attempts - 1) hs h
        · rw [if_neg hc] at h ⊢
          exact ih s attempts hs h
      | errr =>
        simp [tryReadLoop, h0] at h
      | data k =>
        simp only [tryReadLoop, if_neg h0] at h ⊢
        by_cases hk : min k s = 0
        · simp [hk] at h
        · rw [if_neg hk] at h ⊢
          have := ih (s - min k s) attempts (by omega) h
          omega

/-- C10: `tryReadSocket` is all-or-nothing with respect to the retry
budget: a budget-exhausted return consumes zero bytes of the message, so
`tryReadWithMaxAttempts` returns false only with the received-bytes counter
unchanged and nothing read; and once any byte has been consumed
(`s ≠ size`), an EAGAIN no longer touches the attempt counter — the loop
simply retries. -/
theorem tryReadSocket_all_or_nothing (size maxAttempts : ℕ)
    (evs : List RecvEv) :
    ((tryReadSocket size maxAttempts evs).1 = ReadOutcome.budgetExhausted →
      (tryReadSocket size maxAttempts evs).2 = 0)
    ∧ (∀ recvBytes,
        tryReadWithMaxAttempts recvBytes size maxAttempts evs
          = Except.ok (false, recvBytes) →
        (tryReadSocket size maxAttempts evs).2 = 0)
    ∧ (∀ s attempts, s ≠ size →
        tryReadLoop size (RecvEv.eagain :: evs) s attempts
          = tryReadLoop size evs s attempts) := by
  refine ⟨?_, ?_, ?_⟩
  · intro h
    exact (tryReadLoop_budget_consumed size evs size maxAttempts le_rfl h).1
  · intro recvBytes h
    unfold tryReadWithMaxAttempts at h
    rcases hts : tryReadSocket size maxAttempts evs with ⟨o, c⟩
    rw [hts] at h
    cases o with
    | success => simp at h
    | budgetExhausted =>
      have := (tryReadLoop_budget_consumed size evs size maxAttempts le_rfl
        (by rw [show tryReadLoop size evs size maxAttempts
              = tryReadSocket size maxAttempts evs from rfl, hts])).1
      rw [show tryReadLoop size evs size maxAttempts
        = tryReadSocket size maxAttempts evs from rfl, hts] at this
      exact this
    | sockError msg => simp at h
    | starved => simp at h
  · intro s attempts hne
    by_cases h0 : s = 0
    · cases evs <;> simp [tryReadLoop, h0]
    · simp only [tryReadLoop, if_neg h0]
      rw [if_neg (fun hc => hne hc.1)]

theorem tryReadSocket_all_or_nothing_witness :
    (tryReadSocket 4 1 [RecvEv.eagain]).1 = ReadOutcome.budgetExhausted
    ∧ (tryReadSocket 4 1 [RecvEv.eagain]).2 = 0
    ∧ tryReadWithMaxAttempts 10 4 1 [RecvEv.eagain] = Except.ok (false, 10)
    ∧ (tryReadSocket 4 1 [RecvEv.eagain]).2 = 0
    ∧ tryReadLoop 4 [RecvEv.eagain, RecvEv.data 2] 2 1
        = tryReadLoop 4 [RecvEv.data 2] 2 1 :=
  ⟨by decide,
   (tryReadSocket_all_or_nothing 4 1 [RecvEv.eagain]).1 (by decide),
   by decide,
   (tryReadSocket_all_or_nothing 4 1 [RecvEv.eagain]).2.1 10 (by decide),
   (tryReadSocket_all_or_nothing 4 1 [RecvEv.data 2]).2.2 2 1 (by decide)⟩
